import Mathlib

/-!
Verification development for the sequelize utility modules
(`src/lib/utils/object.ts` and the unnamed utility module with the
field-name mapping helpers).  JavaScript plain objects are embedded as
association lists of key/value pairs whose keys are either strings or
symbols; symbols carry a flag recording membership in the fixed set of
query-operator symbols (`operatorsSet` in the source).  Non-structural
recursions (deep merge, where-clause rewriting) take an explicit fuel
argument; every theorem about them is either fuel-uniform or states the
relation between consecutive fuel values.
-/

/-- A JavaScript symbol.  `isOp` records whether the symbol belongs to the
fixed operator set `operatorsSet = new Set(Object.values(Op))` of the
source; symbol identity is the pair of both fields. -/
structure JsSym where
  id : Nat
  isOp : Bool
deriving DecidableEq, Repr

/-- A JavaScript property key: a string or a symbol. -/
inductive JsKey where
  | strK (s : String)
  | symK (s : JsSym)
deriving DecidableEq, Repr

/-- A JavaScript value, as far as the utilities observe it:
primitives, arrays, plain objects (`isPlainObject`), opaque non-plain
objects (model instances and the like, `typeof` yielding `object`), and
function values.  A function value carries the lodash `_baseIsNative`
flag and, when it has a `.clone` method, the value that method returns. -/
inductive JsValue where
  | undefined
  | null
  | bool (b : Bool)
  | num (n : Int)
  | str (s : String)
  | arr (elems : List JsValue)
  | obj (props : List (JsKey × JsValue))
  | other (id : Nat)
  | func (id : Nat) (native : Bool) (cloneResult : Option JsValue)

namespace JsValue

/-- JavaScript truthiness of an embedded value. -/
def truthy : JsValue → Bool
  | undefined => false
  | null => false
  | bool b => b
  | num n => n != 0
  | str s => s != ""
  | arr _ => true
  | obj _ => true
  | other _ => true
  | func _ _ _ => true

/-- lodash `isPlainObject`: object literals / `Object.create(null)` objects. -/
def isPlainObject : JsValue → Bool
  | obj _ => true
  | _ => false

/-- `Array.isArray`. -/
def isArray : JsValue → Bool
  | arr _ => true
  | _ => false

/-- lodash `isObject`: `typeof` is `object` or `function`, and not `null`. -/
def isObjectJs : JsValue → Bool
  | arr _ => true
  | obj _ => true
  | other _ => true
  | func _ _ _ => true
  | _ => false

/-- The test `typeof v === 'object' && v !== null` used by
`flattenObjectDeep` to decide whether to recurse. -/
def isObjTyped : JsValue → Bool
  | arr _ => true
  | obj _ => true
  | other _ => true
  | _ => false

end JsValue

/-- Shorthand for the property list of a plain object. -/
abbrev JsProps := List (JsKey × JsValue)

/-- Property lookup on a property list; JS objects keep at most one binding
per key, so the first match is the binding. -/
def getProp : JsProps → JsKey → Option JsValue
  | [], _ => none
  | (k', v) :: ps, k => if k' = k then some v else getProp ps k

/-- Whether a property list carries a binding for a key. -/
def hasProp : JsProps → JsKey → Bool
  | [], _ => false
  | (k', _) :: ps, k => k' = k || hasProp ps k

/-- JS property assignment: the existing binding is updated in place (its
position is kept), a new key is appended at the end. -/
def setProp : JsProps → JsKey → JsValue → JsProps
  | [], k, v => [(k, v)]
  | (k', v') :: ps, k, v => if k' = k then (k, v) :: ps else (k', v') :: setProp ps k v

/-- JS `delete`: the binding for the key is removed. -/
def delProp : JsProps → JsKey → JsProps
  | [], _ => []
  | (k', v') :: ps, k => if k' = k then delProp ps k else (k', v') :: delProp ps k

namespace JsValue

/-- Property read `v[k]` on any value: a missing property reads as
`undefined`; arrays expose `length` and their elements under the decimal
index strings, strings likewise expose `length` and one-character strings. -/
def getPropV : JsValue → JsKey → JsValue
  | obj ps, k => (getProp ps k).getD undefined
  | arr xs, .strK s =>
      if s = "length" then num xs.length
      else
        match s.toNat? with
        | some i => (xs.get? i).getD undefined
        | none => undefined
  | str t, .strK s =>
      if s = "length" then num t.length
      else
        match s.toNat? with
        | some i =>
            match t.data.get? i with
            | some c => str (String.mk [c])
            | none => undefined
        | none => undefined
  | _, _ => undefined

/-- Writing an array element; writing past the end pads with `undefined`
holes, as reading a JS sparse array would produce. -/
def setElem (xs : List JsValue) (i : Nat) (v : JsValue) : List JsValue :=
  if i < xs.length then xs.set i v
  else xs ++ List.replicate (i - xs.length) undefined ++ [v]

/-- Property write `v[k] = x`.  Writes on primitives are silently dropped,
as in (non-strict) JS.  On arrays only index writes are modelled: `length`
assignment (resizing) and non-index expando properties do not occur in the
modelled fragment. -/
def setPropV : JsValue → JsKey → JsValue → JsValue
  | obj ps, k, x => obj (setProp ps k x)
  | arr xs, .strK s, x =>
      if s = "length" then arr xs
      else
        match s.toNat? with
        | some i => arr (setElem xs i x)
        | none => arr xs
  | w, _, _ => w

/-- Property deletion `delete v[k]`.  Deleting an array index leaves a hole,
which reads back as `undefined`; the length is unchanged. -/
def delPropV : JsValue → JsKey → JsValue
  | obj ps, k => obj (delProp ps k)
  | arr xs, .strK s =>
      match s.toNat? with
      | some i => if i < xs.length then arr (xs.set i undefined) else arr xs
      | none => arr xs
  | w, _ => w

/-- Whether `k in v` holds for the modelled values. -/
def hasKeyV : JsValue → JsKey → Bool
  | obj ps, k => hasProp ps k
  | arr xs, .strK s =>
      if s = "length" then true
      else
        match s.toNat? with
        | some i => i < xs.length
        | none => false
  | _, _ => false

/-- The bound of the loop condition `i < attributes.length`: a missing or
non-numeric `length` property makes the comparison false (`i < undefined`
is `NaN`-like), a negative one likewise. -/
def jsLengthOf (v : JsValue) : Nat :=
  match getPropV v (.strK "length") with
  | num n => n.toNat
  | _ => 0

/-- `Object.keys`: own enumerable string keys, in property order; arrays and
strings expose their decimal index strings. -/
def objectKeys : JsValue → List String
  | obj ps => ps.filterMap (fun p => match p.1 with | .strK s => some s | _ => none)
  | arr xs => (List.range xs.length).map (fun i => toString i)
  | str s => (List.range s.length).map (fun i => toString i)
  | _ => []

/-- `getOperators` of the source: the own symbol keys that belong to the
operator set. -/
def getOperators : JsValue → List JsKey
  | obj ps =>
      ps.filterMap
        (fun p => match p.1 with
          | .symK s => if s.isOp then some (.symK s) else none
          | _ => none)
  | _ => []

/-- `getComplexKeys` of the source: operator symbol keys followed by the
string keys. -/
def getComplexKeys (v : JsValue) : List JsKey :=
  v.getOperators ++ (v.objectKeys).map .strK

end JsValue

mutual

/-- Whether a value contains no function node carrying a `.clone` method;
on such values the deep clone is the identity. -/
def hookFree : JsValue → Bool
  | .arr xs => hookFreeL xs
  | .obj ps => hookFreeP ps
  | .func _ _ (some _) => false
  | _ => true

/-- List version of `hookFree`. -/
def hookFreeL : List JsValue → Bool
  | [] => true
  | x :: xs => hookFree x && hookFreeL xs

/-- Property-list version of `hookFree`. -/
def hookFreeP : JsProps → Bool
  | [] => true
  | (_, v) :: ps => hookFree v && hookFreeP ps

end

mutual

/-- The traversal of lodash `cloneDeepWith` with the customizer of
`cloneDeep` in `object.ts`: arrays and plain objects are cloned
structurally, `null` and non-plain objects are returned as they are, and a
function node is replaced by the result of its `.clone` method unless
`onlyPlain` is set.  A function reached without a `.clone` method is
returned unchanged, as lodash does for non-cloneable sub-values. -/
def cloneRec (onlyPlain : Bool) : JsValue → JsValue
  | .arr xs => .arr (cloneRecL onlyPlain xs)
  | .obj ps => .obj (cloneRecP onlyPlain ps)
  | .func i n c =>
      if onlyPlain then .func i n c
      else
        match c with
        | some r => r
        | none => .func i n c
  | v => v

/-- Element-wise clone of an array's contents. -/
def cloneRecL (onlyPlain : Bool) : List JsValue → List JsValue
  | [] => []
  | x :: xs => cloneRec onlyPlain x :: cloneRecL onlyPlain xs

/-- Property-wise clone of an object's contents; string and symbol keys are
both copied, as lodash clones symbol-keyed properties. -/
def cloneRecP (onlyPlain : Bool) : JsProps → JsProps
  | [] => []
  | (k, v) :: ps => (k, cloneRec onlyPlain v) :: cloneRecP onlyPlain ps

end

/-- `cloneDeep` of `object.ts`: a falsy argument is replaced by a fresh
empty object (`obj || {}`) before cloning. -/
def cloneDeep (v : JsValue) (onlyPlain : Bool) : JsValue :=
  cloneRec onlyPlain (if v.truthy then v else .obj [])

/-- Whether a value is `undefined`. -/
def isUndefined : JsValue → Bool
  | .undefined => true
  | _ => false

/-- Whether a value is `null`. -/
def isNull : JsValue → Bool
  | .null => true
  | _ => false

/-- The `isFunction(v) && baseIsNative(v)` test of `mergeDefaults`. -/
def isNativeFunc : JsValue → Bool
  | .func _ native _ => native
  | _ => false

/-- The element list of an array value (empty on anything else). -/
def arrElems : JsValue → List JsValue
  | .arr xs => xs
  | _ => []

/-- Own enumerable string-keyed entries in property order, as lodash
`forOwn` and `forIn` enumerate them (`forIn` additionally walks inherited
properties, which plain data objects do not have).  Symbol-keyed
properties are never enumerated. -/
def ownStringEntries : JsValue → List (String × JsValue)
  | .obj ps =>
      ps.filterMap (fun p => match p.1 with | .strK s => some (s, p.2) | _ => none)
  | .arr xs => xs.enum.map (fun p => (toString p.1, p.2))
  | .str s => s.data.enum.map (fun p => (toString p.1, .str (String.mk [p.2])))
  | _ => []

mutual

/-- The variadic `merge` of `object.ts`.  The result starts as a fresh
`Object.create(null)` object; for each argument, `forOwn` visits its own
string-keyed properties in order.  The fuel bounds the nested-object
recursion `merge(result[key], value)`; exhausted fuel yields the fresh
empty result object. -/
def mergeF : Nat → List JsValue → JsValue
  | 0, _ => .obj []
  | fuel+1, args => .obj (mergeArgs fuel args [])
termination_by fuel _ => (fuel, 0, 0)

/-- Folds the arguments of `merge` into the accumulated result object. -/
def mergeArgs : Nat → List JsValue → JsProps → JsProps
  | _, [], acc => acc
  | fuel, a :: rest, acc => mergeArgs fuel rest (mergeEntries fuel (ownStringEntries a) acc)
termination_by fuel args _ => (fuel, 3, args.length)

/-- Folds one argument's enumerated entries into the result object. -/
def mergeEntries : Nat → List (String × JsValue) → JsProps → JsProps
  | _, [], acc => acc
  | fuel, (key, value) :: es, acc => mergeEntries fuel es (mergeEntry fuel acc key value)
termination_by fuel es _ => (fuel, 2, es.length)

/-- One `forOwn` step of `merge`: `undefined` is skipped, a falsy existing
binding is overwritten, two plain objects are merged recursively, two
arrays are concatenated source-first, anything else is overwritten. -/
def mergeEntry (fuel : Nat) (acc : JsProps) (key : String) (value : JsValue) : JsProps :=
  if isUndefined value then acc
  else
    let cur := (getProp acc (.strK key)).getD .undefined
    if !cur.truthy then setProp acc (.strK key) value
    else if value.isPlainObject && cur.isPlainObject then
      setProp acc (.strK key) (mergeF fuel [cur, value])
    else if value.isArray && cur.isArray then
      setProp acc (.strK key) (.arr (arrElems value ++ arrElems cur))
    else setProp acc (.strK key) value
termination_by (fuel, 1, 0)

end

mutual

/-- `mergeDefaults` of `object.ts`: lodash `mergeWith(a, b, customizer)`.
The customizer keeps every already-assigned non-plain-object value of `a`
(native functions instead take `sourceValue || objectValue`); otherwise
lodash's default deep merge runs.  Only string-keyed properties of `b` are
enumerated (`keysIn`); the reference-equality shortcut `object === source`
and array-like plain objects are outside the modelled fragment.  The
function mutates and returns `a`; the result is the post-state of `a`. -/
def mergeDefaultsF : Nat → JsValue → JsValue → JsValue
  | 0, a, _ => a
  | fuel+1, a, b => mdEntries fuel (ownStringEntries b) a
termination_by fuel _ _ => (fuel, 0, 0)

/-- Folds the source entries of `mergeDefaults` into the destination. -/
def mdEntries : Nat → List (String × JsValue) → JsValue → JsValue
  | _, [], a => a
  | fuel, (key, src) :: es, a => mdEntries fuel es (mdEntry fuel a key src)
termination_by fuel es _ => (fuel, 2, es.length)

/-- One key of `mergeWith(a, b, customizer)`.  With an object-like source
value lodash deep-merges: a plain-object destination is merged in place, a
missing destination starts from a fresh `{}` (for a plain source) or `[]`
(for an array source), and a non-plain object source is assigned as is.
With a primitive source value it is assigned unless the customizer kept
the destination value; `undefined` creates the key only if absent. -/
def mdEntry (fuel : Nat) (a : JsValue) (key : String) (src : JsValue) : JsValue :=
  let objValue := a.getPropV (.strK key)
  if src.isObjectJs then
    if !objValue.isPlainObject && !isUndefined objValue then
      if isNativeFunc objValue then
        a.setPropV (.strK key) (if src.truthy then src else objValue)
      else a
    else
      if src.isArray then a.setPropV (.strK key) (mergeDefaultsF fuel (.arr []) src)
      else if src.isPlainObject then
        let base := if objValue.isPlainObject then objValue else .obj []
        a.setPropV (.strK key) (mergeDefaultsF fuel base src)
      else a.setPropV (.strK key) src
  else
    if !objValue.isPlainObject && !isUndefined objValue then
      if isNativeFunc objValue then
        a.setPropV (.strK key) (if src.truthy then src else objValue)
      else a
    else
      if isUndefined src then
        if a.hasKeyV (.strK key) then a else a.setPropV (.strK key) .undefined
      else a.setPropV (.strK key) src
termination_by (fuel, 1, 0)

end


/-- Modelled from the spec: the column data types whose `instanceof
DataTypes.HSTORE / DataTypes.JSON` tests make `mapWhereFieldNames` skip
recursion; the `DataTypes` classes live outside `src/`. -/
inductive DataKind where
  | hstore
  | jsonKind
  | plainKind
deriving DecidableEq, Repr

/-- Modelled from the spec: one entry of `Model.rawAttributes` — the
attribute-to-column mapping metadata the external ORM supplies
(`field` the physical column, `fieldName` the logical name, and the
declared data type). -/
structure RawAttr where
  field : String
  fieldName : String
  type : DataKind
deriving DecidableEq, Repr

/-- Modelled from the spec: the model metadata the utilities consume — the
`rawAttributes` map keyed by attribute name and the `_virtualAttributes`
set. -/
structure Model where
  rawAttributes : List (String × RawAttr)
  virtualAttributes : List String
deriving DecidableEq, Repr

/-- The lookup `Model.rawAttributes[attributeName]`: `rawAttributes` is
string-keyed, so a symbol key finds nothing. -/
def lookupRawAttr (M : Model) : JsKey → Option RawAttr
  | .strK s => (M.rawAttributes.find? (fun p => p.1 == s)).map Prod.snd
  | .symK _ => none

/-- The guard `rawAttribute && (rawAttribute.type instanceof DataTypes.HSTORE
|| rawAttribute.type instanceof DataTypes.JSON)` of `mapWhereFieldNames`. -/
def skipHstoreJson : Option RawAttr → Bool
  | some ra => ra.type == .hstore || ra.type == .jsonKind
  | none => false

mutual

/-- `mapWhereFieldNames` of the utility module.  A falsy argument is
returned unchanged; otherwise the argument is deep-cloned and the loop
below walks the snapshot `getComplexKeys` of the clone, mutating the
clone.  The fuel bounds the recursion into nested values; exhausted fuel
returns the value unprocessed. -/
def mapWhereFieldNamesF : Nat → JsValue → Model → JsValue
  | 0, attributes, _ => attributes
  | fuel+1, attributes, M =>
      if !attributes.truthy then attributes
      else
        let a0 := cloneDeep attributes false
        whereKeys fuel M a0.getComplexKeys a0
termination_by fuel _ _ => (fuel, 0, 0)

/-- The `for (const attributeName of getComplexKeys(attributes))` loop of
`mapWhereFieldNames`, one `whereKeyStep` per snapshot key. -/
def whereKeys : Nat → Model → List JsKey → JsValue → JsValue
  | _, _, [], st => st
  | fuel, M, k :: ks, st => whereKeys fuel M ks (whereKeyStep fuel M st k)
termination_by fuel _ ks _ => (fuel, 3, ks.length)

/-- The rename step of one `mapWhereFieldNames` iteration: when the
attribute exists and `rawAttribute.field !== rawAttribute.fieldName`, the
value moves to `rawAttribute.field` and the original key is deleted. -/
def whereKeyRename (M : Model) (st : JsValue) (k : JsKey) : JsValue :=
  match lookupRawAttr M k with
  | some ra =>
      if ra.field ≠ ra.fieldName then
        (st.setPropV (.strK ra.field) (st.getPropV k)).delPropV k
      else st
  | none => st

/-- The recursion step of one `mapWhereFieldNames` iteration: re-read
`attributes[attributeName]` — after a rename this reads `undefined` — and
rewrite a plain-object value recursively unless the attribute is HSTORE-
or JSON-typed.  The recursion in the source goes through
`mapOptionFieldNames({ where: v }, Model).where`, which on a plain-object
`v` is exactly `mapWhereFieldNames(v, Model)`; see
`mapOption_where_unfold`. -/
def whereKeyRecurse (fuel : Nat) (M : Model) (st1 : JsValue) (k : JsKey) : JsValue :=
  if (st1.getPropV k).isPlainObject && !skipHstoreJson (lookupRawAttr M k) then
    st1.setPropV k (mapWhereFieldNamesF fuel (st1.getPropV k) M)
  else st1
termination_by (fuel, 2, 0)

/-- The array step of one `mapWhereFieldNames` iteration: when the re-read
value is an array, run the (mis-indexed) inner loop. -/
def whereKeyArr (fuel : Nat) (M : Model) (st2 : JsValue) (k : JsKey) : JsValue :=
  if (st2.getPropV k).isArray then whereArrLoop fuel M k st2.jsLengthOf 0 st2 else st2
termination_by (fuel, 2, 1)

/-- One iteration of the `mapWhereFieldNames` loop: rename, then recurse
into a surviving plain-object value, then the array loop. -/
def whereKeyStep : Nat → Model → JsValue → JsKey → JsValue
  | fuel, M, st, k => whereKeyArr fuel M (whereKeyRecurse fuel M (whereKeyRename M st k) k) k
termination_by fuel _ _ _ => (fuel, 2, 2)

/-- The inner loop `for (let i = 0; i < attributes.length; i++)` of
`mapWhereFieldNames`: it reads `attributes[i]` from the outer object and
writes `attributes[attributeName][i]`.  The loop condition consults the
outer object's `length` property, re-evaluated each iteration; the bound
argument only ensures termination and is at least the iteration count, as
no write of the loop can grow `jsLengthOf` of the state. -/
def whereArrLoop : Nat → Model → JsKey → Nat → Nat → JsValue → JsValue
  | _, _, _, 0, _, st => st
  | fuel, M, k, bound+1, i, st =>
      if i < st.jsLengthOf then
        let w := st.getPropV (.strK (toString i))
        let st' :=
          if w.isPlainObject then
            st.setPropV k
              ((st.getPropV k).setPropV (.strK (toString i)) (mapWhereFieldNamesF fuel w M))
          else st
        whereArrLoop fuel M k bound (i+1) st'
      else st
termination_by fuel _ _ bound _ _ => (fuel, 1, bound)

end

/-- The options record of `mapOptionFieldNames`: the `attributes` and
`where` properties of the finder options (`whereClause` models
`options.where`; `undefined` stands for an absent property). -/
structure FinderOptions where
  attributes : JsValue
  whereClause : JsValue

/-- The attribute mapping step of `mapOptionFieldNames`: a non-string entry
is kept (the lookup would coerce it), a string entry with a raw attribute
whose `field` differs from it becomes the aliased pair
`[rawAttributes[attr].field, attr]`, anything else is kept. -/
def attrMapEntry (M : Model) (attr : JsValue) : JsValue :=
  match attr with
  | .str s =>
      match lookupRawAttr M (.strK s) with
      | some ra => if s ≠ ra.field then .arr [.str ra.field, .str s] else .str s
      | none => .str s
  | a => a

/-- `mapOptionFieldNames`: when `options.attributes` is an array its
entries are mapped through `attrMapEntry`, and a truthy plain-object
`options.where` is rewritten by `mapWhereFieldNames`.  The source assigns
both results back onto its `options` argument and returns that same
object, so the returned record is the caller's options object after the
call. -/
def mapOptionFieldNamesF (fuel : Nat) (options : FinderOptions) (M : Model) : FinderOptions :=
  let options :=
    if options.attributes.isArray then
      { options with
          attributes :=
            match options.attributes with
            | .arr xs => .arr (xs.map (attrMapEntry M))
            | v => v }
    else options
  if options.whereClause.truthy && options.whereClause.isPlainObject then
    { options with whereClause := mapWhereFieldNamesF fuel options.whereClause M }
  else options

/-- Statement-by-statement translation of `mapOptionFieldNames` that keeps
the state of the caller's `options` object alongside the returned value:
`options.attributes = …` and `options.where = …` update the argument
object in place, and `return options` returns that very object, so the
first component (the result) is the second (the argument's post-state). -/
def mapOptionFieldNamesSt (fuel : Nat) (options : FinderOptions) (M : Model) :
    FinderOptions × FinderOptions :=
  let o1 :=
    if options.attributes.isArray then
      { options with
          attributes :=
            match options.attributes with
            | .arr xs => .arr (xs.map (attrMapEntry M))
            | v => v }
    else options
  let o2 :=
    if o1.whereClause.truthy && o1.whereClause.isPlainObject then
      { o1 with whereClause := mapWhereFieldNamesF fuel o1.whereClause M }
    else o1
  (o2, o2)

/-- Lookup in a string-keyed data object, `undefined` when absent. -/
def getStrD (l : List (String × JsValue)) (s : String) : JsValue :=
  ((l.find? (fun p => p.1 == s)).map Prod.snd).getD .undefined

/-- The key under which `mapValueFieldNames` stores the value of `attr`:
`rawAttributes[attr].field` when present, truthy and different from
`attr`, else `attr` itself. -/
def valueKeyOf (M : Model) (attr : String) : String :=
  match lookupRawAttr M (.strK attr) with
  | some ra => if ra.field ≠ "" ∧ ra.field ≠ attr then ra.field else attr
  | none => attr

/-- The `for (const attr of fields)` loop of `mapValueFieldNames`: a field
whose data value is defined (`dataValues[attr] !== undefined`) and which is
not a virtual attribute is stored under `valueKeyOf`. -/
def valueLoop (dataValues : List (String × JsValue)) (M : Model) :
    List String → JsProps → JsProps
  | [], values => values
  | attr :: fields, values =>
      valueLoop dataValues M fields
        (if !isUndefined (getStrD dataValues attr) && !M.virtualAttributes.contains attr then
          setProp values (.strK (valueKeyOf M attr)) (getStrD dataValues attr)
        else values)

/-- `mapValueFieldNames`: builds a fresh object from the qualifying fields. -/
def mapValueFieldNames (dataValues : List (String × JsValue)) (fields : List String)
    (M : Model) : JsValue :=
  .obj (valueLoop dataValues M fields [])

/-- Prefix test on character lists. -/
def prefEq : List Char → List Char → Bool
  | [], _ => true
  | _ :: _, [] => false
  | c :: cs, d :: ds => c == d && prefEq cs ds

/-- The JS `key.endsWith(t)` test: `t` is a suffix of `key`. -/
def strEndsWith (s t : String) : Bool :=
  prefEq t.data.reverse s.data.reverse

/-- The filter of `removeNullValuesFromHash`: a key survives when it is
allow-listed, ends with `Id`, or has a value that is neither `null` nor
`undefined`. -/
def keepHashEntry (allowNull : List String) (key : String) (val : JsValue) : Bool :=
  allowNull.contains key || strEndsWith key "Id" || (!isNull val && !isUndefined val)

/-- The `forIn` loop of `removeNullValuesFromHash`: string-keyed entries
that pass `keepHashEntry` are copied into the fresh accumulator object;
symbol-keyed properties are not enumerated by `forIn`. -/
def omitNullLoop (allowNull : List String) : JsProps → JsProps → JsProps
  | [], acc => acc
  | (k, val) :: ps, acc =>
      match k with
      | .strK key =>
          omitNullLoop allowNull ps
            (if keepHashEntry allowNull key val then setProp acc (.strK key) val else acc)
      | .symK _ => omitNullLoop allowNull ps acc

/-- `removeNullValuesFromHash`: with `omitNull` false the hash argument is
returned as is; otherwise a fresh object collects the surviving entries
(`forIn` enumerates nothing on a non-object). -/
def removeNullValuesFromHash (hash : JsValue) (omitNull : Bool)
    (allowNull : List String) : JsValue :=
  if omitNull then
    match hash with
    | .obj ps => .obj (omitNullLoop allowNull ps [])
    | _ => .obj []
  else hash

/-- Strict lexicographic order on character lists, the order JS `<` uses
on strings (compared unit by unit). -/
def lexLt : List Char → List Char → Bool
  | [], [] => false
  | [], _ :: _ => true
  | _ :: _, [] => false
  | c :: cs, d :: ds => if c < d then true else if d < c then false else lexLt cs ds

/-- The JS string comparison `a < b`. -/
def jsStrLt (a b : String) : Bool :=
  lexLt a.data b.data

/-- The JS `toLowerCase()` call, per character. -/
def jsToLower (s : String) : String :=
  String.mk (s.data.map Char.toLower)

/-- `combineTableNames`: the JS `<` comparison of the lowercased names
decides the concatenation order.  JS lowercases with the Unicode mapping
and compares by UTF-16 units; the embedding lowercases per character and
compares code points, which agrees on the names the callers pass. -/
def combineTableNames (tableName1 tableName2 : String) : String :=
  if jsStrLt (jsToLower tableName1) (jsToLower tableName2) then tableName1 ++ tableName2
  else tableName2 ++ tableName1

/-- The dot-joining of `flattenObjectDeep`'s `pathToProperty`. -/
def joinPath (subPath : Option String) (key : String) : String :=
  match subPath with
  | some sp => sp ++ "." ++ key
  | none => key

/-- Assignment into the flat accumulator object of `flattenObjectDeep`:
the existing binding is updated in place, a new key is appended. -/
def setStrProp : List (String × JsValue) → String → JsValue → List (String × JsValue)
  | [], k, v => [(k, v)]
  | (k', v') :: ps, k, v =>
      if k' = k then (k, v) :: ps else (k', v') :: setStrProp ps k v

mutual

/-- The inner `flattenObject` of `flattenObjectDeep`: walks `Object.keys`,
recursing on `typeof obj[key] === 'object' && obj[key] !== null` values and
assigning every other value into the shared flat accumulator under its
dot-joined path. -/
def flattenRec : JsValue → Option String → List (String × JsValue) → List (String × JsValue)
  | .obj ps, subPath, acc => flattenRecP ps subPath acc
  | .arr xs, subPath, acc => flattenRecL xs 0 subPath acc
  | _, _, acc => acc

/-- Property-list walk of `flattenRec`; symbol keys are not enumerated by
`Object.keys`. -/
def flattenRecP : JsProps → Option String → List (String × JsValue) → List (String × JsValue)
  | [], _, acc => acc
  | (.strK key, v) :: ps, subPath, acc =>
      let path := joinPath subPath key
      let acc' := if v.isObjTyped then flattenRec v (some path) acc else setStrProp acc path v
      flattenRecP ps subPath acc'
  | (.symK _, _) :: ps, subPath, acc => flattenRecP ps subPath acc

/-- Array walk of `flattenRec` over the decimal index keys. -/
def flattenRecL : List JsValue → Nat → Option String → List (String × JsValue) →
    List (String × JsValue)
  | [], _, _, acc => acc
  | x :: xs, i, subPath, acc =>
      let path := joinPath subPath (toString i)
      let acc' := if x.isObjTyped then flattenRec x (some path) acc else setStrProp acc path x
      flattenRecL xs (i+1) subPath acc'

end

/-- `flattenObjectDeep`: a non-plain-object input is returned unchanged,
otherwise the flat accumulator is built from an empty object. -/
def flattenObjectDeep (value : JsValue) : JsValue :=
  if !value.isPlainObject then value
  else .obj ((flattenRec value none []).map (fun p => (.strK p.1, p.2)))

mutual

/-- The leaf entries of a tree-like value, written after the claim: one
entry per root-to-leaf path (a leaf being a value on which the walk does
not recurse), keyed by the dot-joined path and carrying the leaf value, in
traversal order. -/
def leafEntries : JsValue → Option String → List (String × JsValue)
  | .obj ps, subPath => leafEntriesP ps subPath
  | .arr xs, subPath => leafEntriesL xs 0 subPath
  | _, _ => []

/-- Property-list walk of `leafEntries`. -/
def leafEntriesP : JsProps → Option String → List (String × JsValue)
  | [], _ => []
  | (.strK key, v) :: ps, subPath =>
      (if v.isObjTyped then leafEntries v (some (joinPath subPath key))
       else [(joinPath subPath key, v)]) ++ leafEntriesP ps subPath
  | (.symK _, _) :: ps, subPath => leafEntriesP ps subPath

/-- Array walk of `leafEntries`. -/
def leafEntriesL : List JsValue → Nat → Option String → List (String × JsValue)
  | [], _, _ => []
  | x :: xs, i, subPath =>
      (if x.isObjTyped then leafEntries x (some (joinPath subPath (toString i)))
       else [(joinPath subPath (toString i), x)]) ++ leafEntriesL xs (i+1) subPath

end


/-- The claim's description of the `mapOptionFieldNames` attribute
mapping: a string entry for which the model has a raw attribute whose
physical field differs from the entry is replaced by the aliased pair
`[field, attr]`; every non-string entry, string entry whose field equals
the attribute name, and string entry without a raw attribute is left
unchanged. -/
def specAttrEntry (M : Model) (entry : JsValue) : JsValue :=
  match entry with
  | .str attr =>
      match lookupRawAttr M (.strK attr) with
      | some ra => if ra.field ≠ attr then .arr [.str ra.field, .str attr] else .str attr
      | none => .str attr
  | e => e

/-- The guard of the `mapValueFieldNames` loop body: the data value is
defined and the attribute is not virtual. -/
def valueQualifies (dataValues : List (String × JsValue)) (M : Model) (attr : String) : Bool :=
  !isUndefined (getStrD dataValues attr) && !M.virtualAttributes.contains attr

/-! ### Lemmas about property lists -/

theorem getProp_setProp_self (ps : JsProps) (k : JsKey) (v : JsValue) :
    getProp (setProp ps k v) k = some v := by
  induction ps with
  | nil => simp [setProp, getProp]
  | cons q qs ih =>
      by_cases hq : q.1 = k
      · simp [setProp, hq, getProp]
      · simp [setProp, hq, getProp, ih]

theorem getProp_setProp_ne (ps : JsProps) (k k' : JsKey) (v : JsValue) (h : k' ≠ k) :
    getProp (setProp ps k v) k' = getProp ps k' := by
  have hkk : ¬ k = k' := fun e => h (Eq.symm e)
  induction ps with
  | nil => simp [setProp, getProp, hkk]
  | cons q qs ih =>
      by_cases hq : q.1 = k
      · simp [setProp, hq, getProp, hkk]
      · simp [setProp, hq, getProp, ih]

theorem getProp_delProp_ne (ps : JsProps) (k k' : JsKey) (h : k' ≠ k) :
    getProp (delProp ps k) k' = getProp ps k' := by
  have hkk : ¬ k = k' := fun e => h (Eq.symm e)
  induction ps with
  | nil => simp [delProp]
  | cons q qs ih =>
      by_cases hq : q.1 = k
      · have h2 : ¬ q.1 = k' := fun e => h (e ▸ hq)
        simp [delProp, hq, getProp, h2, hkk, ih]
      · simp [delProp, hq, getProp, ih]

theorem hasProp_setProp (ps : JsProps) (k k' : JsKey) (v : JsValue) :
    hasProp (setProp ps k v) k' = (hasProp ps k' || k = k') := by
  induction ps with
  | nil => simp [setProp, hasProp]
  | cons q qs ih =>
      by_cases hq : q.1 = k
      · by_cases hk : k = k'
        · simp [setProp, hq, hasProp, hk, hq ▸ hk]
        · simp [setProp, hq, hasProp, hk, hq]
      · simp only [setProp, hq, if_false, hasProp, ih]
        by_cases hq' : q.1 = k' <;> simp [hq', Bool.or_assoc]

theorem hasProp_delProp_ne (ps : JsProps) (k k' : JsKey) (h : k' ≠ k) :
    hasProp (delProp ps k) k' = hasProp ps k' := by
  have hkk : ¬ k = k' := fun e => h (Eq.symm e)
  induction ps with
  | nil => simp [delProp]
  | cons q qs ih =>
      by_cases hq : q.1 = k
      · have h2 : ¬ q.1 = k' := fun e => h (e ▸ hq)
        simp [delProp, hq, hasProp, h2, hkk, ih]
      · simp [delProp, hq, hasProp, ih]

/-! ### Symbol-keyed bindings survive string-keyed writes -/

theorem getPropV_setPropV_str_sym (a : JsValue) (s : String) (x : JsValue) (t : JsSym) :
    (a.setPropV (.strK s) x).getPropV (.symK t) = a.getPropV (.symK t) := by
  cases a with
  | obj ps =>
      simp only [JsValue.setPropV, JsValue.getPropV]
      rw [getProp_setProp_ne ps (.strK s) (.symK t) x (by simp)]
  | arr xs =>
      simp only [JsValue.setPropV]
      split
      · rfl
      · split <;> rfl
  | _ => rfl

theorem hasKeyV_setPropV_str_sym (a : JsValue) (s : String) (x : JsValue) (t : JsSym) :
    (a.setPropV (.strK s) x).hasKeyV (.symK t) = a.hasKeyV (.symK t) := by
  cases a with
  | obj ps =>
      simp only [JsValue.setPropV, JsValue.hasKeyV]
      rw [hasProp_setProp]
      simp
  | arr xs =>
      simp only [JsValue.setPropV]
      split
      · rfl
      · split <;> rfl
  | _ => rfl

/-! ### Clone lemmas -/

theorem cloneRecP_getProp (op : Bool) (ps : JsProps) (k : JsKey) :
    getProp (cloneRecP op ps) k = (getProp ps k).map (cloneRec op) := by
  induction ps with
  | nil => simp [cloneRecP, getProp]
  | cons q qs ih =>
      obtain ⟨k', v⟩ := q
      by_cases hq : k' = k
      · simp [cloneRecP, getProp, hq]
      · simp [cloneRecP, getProp, hq, ih]

theorem cloneRecP_hasProp (op : Bool) (ps : JsProps) (k : JsKey) :
    hasProp (cloneRecP op ps) k = hasProp ps k := by
  induction ps with
  | nil => simp [cloneRecP]
  | cons q qs ih =>
      obtain ⟨k', v⟩ := q
      simp [cloneRecP, hasProp, ih]

mutual

theorem cloneRec_id_of_hookFree : ∀ (v : JsValue), hookFree v = true → cloneRec false v = v
  | .arr xs, h => by
      simp only [hookFree] at h
      simp only [cloneRec, cloneRecL_id_of_hookFree xs h]
  | .obj ps, h => by
      simp only [hookFree] at h
      simp only [cloneRec, cloneRecP_id_of_hookFree ps h]
  | .func _ _ none, _ => rfl
  | .func _ _ (some _), h => by simp [hookFree] at h
  | .undefined, _ => rfl
  | .null, _ => rfl
  | .bool _, _ => rfl
  | .num _, _ => rfl
  | .str _, _ => rfl
  | .other _, _ => rfl

theorem cloneRecL_id_of_hookFree : ∀ (xs : List JsValue),
    hookFreeL xs = true → cloneRecL false xs = xs
  | [], _ => rfl
  | x :: xs, h => by
      simp only [hookFreeL, Bool.and_eq_true] at h
      simp only [cloneRecL, cloneRec_id_of_hookFree x h.1, cloneRecL_id_of_hookFree xs h.2]

theorem cloneRecP_id_of_hookFree : ∀ (ps : JsProps),
    hookFreeP ps = true → cloneRecP false ps = ps
  | [], _ => rfl
  | (k, v) :: ps, h => by
      simp only [hookFreeP, Bool.and_eq_true] at h
      simp only [cloneRecP, cloneRec_id_of_hookFree v h.1, cloneRecP_id_of_hookFree ps h.2]

end

/-! ### Merge never creates symbol keys -/

theorem mergeEntry_hasProp_sym (fuel : Nat) (acc : JsProps) (key : String) (value : JsValue)
    (t : JsSym) : hasProp (mergeEntry fuel acc key value) (.symK t) = hasProp acc (.symK t) := by
  simp only [mergeEntry]
  repeat' split
  all_goals simp [hasProp_setProp]

theorem mergeEntries_hasProp_sym (fuel : Nat) (es : List (String × JsValue)) (acc : JsProps)
    (t : JsSym) : hasProp (mergeEntries fuel es acc) (.symK t) = hasProp acc (.symK t) := by
  induction es generalizing acc with
  | nil => simp [mergeEntries]
  | cons e es ih =>
      obtain ⟨key, value⟩ := e
      rw [mergeEntries, ih, mergeEntry_hasProp_sym]

theorem mergeArgs_hasProp_sym (fuel : Nat) (args : List JsValue) (acc : JsProps) (t : JsSym) :
    hasProp (mergeArgs fuel args acc) (.symK t) = hasProp acc (.symK t) := by
  induction args generalizing acc with
  | nil => simp [mergeArgs]
  | cons a rest ih =>
      rw [mergeArgs, ih, mergeEntries_hasProp_sym]

/-! ### mergeDefaults leaves symbol-keyed bindings of `a` alone -/

theorem mdEntry_sym_getProp (fuel : Nat) (a : JsValue) (key : String) (src : JsValue)
    (t : JsSym) : (mdEntry fuel a key src).getPropV (.symK t) = a.getPropV (.symK t) := by
  simp only [mdEntry]
  repeat' split
  all_goals simp [getPropV_setPropV_str_sym]

theorem mdEntry_sym_hasKey (fuel : Nat) (a : JsValue) (key : String) (src : JsValue)
    (t : JsSym) : (mdEntry fuel a key src).hasKeyV (.symK t) = a.hasKeyV (.symK t) := by
  simp only [mdEntry]
  repeat' split
  all_goals simp [hasKeyV_setPropV_str_sym]

theorem mdEntries_sym_getProp (fuel : Nat) (es : List (String × JsValue)) (a : JsValue)
    (t : JsSym) : (mdEntries fuel es a).getPropV (.symK t) = a.getPropV (.symK t) := by
  induction es generalizing a with
  | nil => simp [mdEntries]
  | cons e es ih =>
      obtain ⟨key, src⟩ := e
      rw [mdEntries, ih, mdEntry_sym_getProp]

theorem mdEntries_sym_hasKey (fuel : Nat) (es : List (String × JsValue)) (a : JsValue)
    (t : JsSym) : (mdEntries fuel es a).hasKeyV (.symK t) = a.hasKeyV (.symK t) := by
  induction es generalizing a with
  | nil => simp [mdEntries]
  | cons e es ih =>
      obtain ⟨key, src⟩ := e
      rw [mdEntries, ih, mdEntry_sym_hasKey]

/-- C1 (corrected).  Operator symbol keys and cloning/merging: `cloneDeep`
preserves every symbol-keyed binding (the value itself deep-cloned, which
is the identity on hook-free values); `merge` enumerates only string keys,
so its output carries no symbol key at all; `mergeDefaults` never touches
the symbol-keyed bindings of its first argument (and never copies symbol
keys from the second). -/
theorem C1_operator_symbol_keys :
    (∀ (ps : JsProps) (t : JsSym),
        (cloneDeep (.obj ps) false).hasKeyV (.symK t) = hasProp ps (.symK t)
        ∧ (cloneDeep (.obj ps) false).getPropV (.symK t)
            = cloneRec false ((JsValue.obj ps).getPropV (.symK t))
        ∧ (hookFree ((JsValue.obj ps).getPropV (.symK t)) = true →
            cloneRec false ((JsValue.obj ps).getPropV (.symK t))
              = (JsValue.obj ps).getPropV (.symK t)))
    ∧ (∀ (fuel : Nat) (args : List JsValue) (t : JsSym),
        (mergeF fuel args).hasKeyV (.symK t) = false)
    ∧ (∀ (fuel : Nat) (a b : JsValue) (t : JsSym),
        (mergeDefaultsF fuel a b).hasKeyV (.symK t) = a.hasKeyV (.symK t)
        ∧ (mergeDefaultsF fuel a b).getPropV (.symK t) = a.getPropV (.symK t)) := by
  refine ⟨fun ps t => ⟨?_, ?_, fun h => cloneRec_id_of_hookFree _ h⟩, fun fuel args t => ?_,
    fun fuel a b t => ⟨?_, ?_⟩⟩
  · simp only [cloneDeep, JsValue.truthy, if_pos, cloneRec, JsValue.hasKeyV]
    exact cloneRecP_hasProp false ps (.symK t)
  · simp only [cloneDeep, JsValue.truthy, if_pos, cloneRec, JsValue.getPropV]
    rw [cloneRecP_getProp]
    cases getProp ps (.symK t) <;> rfl
  · cases fuel with
    | zero => simp [mergeF, JsValue.hasKeyV, hasProp]
    | succ fuel =>
        simp only [mergeF, JsValue.hasKeyV]
        rw [mergeArgs_hasProp_sym]
        rfl
  · cases fuel with
    | zero => simp [mergeDefaultsF]
    | succ fuel =>
        simp only [mergeDefaultsF]
        exact mdEntries_sym_hasKey fuel _ a t
  · cases fuel with
    | zero => simp [mergeDefaultsF]
    | succ fuel =>
        simp only [mergeDefaultsF]
        exact mdEntries_sym_getProp fuel _ a t

/-- Witness for `C1_operator_symbol_keys` at a concrete operator symbol:
the clone keeps the binding with an equal value, and `mergeDefaults` keeps
the first argument's operator-symbol binding. -/
theorem C1_operator_symbol_keys_witness :
    (cloneDeep (.obj [(.symK ⟨0, true⟩, .num 1)]) false).getPropV (.symK ⟨0, true⟩)
        = JsValue.num 1
    ∧ (mergeDefaultsF 2 (.obj [(.symK ⟨0, true⟩, .num 1)])
        (.obj [(.strK "x", .num 2)])).getPropV (.symK ⟨0, true⟩) = JsValue.num 1 := by
  have h := C1_operator_symbol_keys
  constructor
  · have h1 := h.1 [(.symK ⟨0, true⟩, .num 1)] ⟨0, true⟩
    rw [h1.2.1, h1.2.2 (by rfl)]
    rfl
  · rw [(h.2.2 2 _ _ ⟨0, true⟩).2]
    rfl

/-- Counterexample to C1 as stated: an input object carrying an operator
symbol key with value `1` loses that key entirely in the output of
`merge`, because `forOwn` enumerates no symbol-keyed property. -/
theorem C1_merge_drops_operator_symbols :
    ((JsValue.obj [(.symK ⟨0, true⟩, .num 1)]).getPropV (.symK ⟨0, true⟩) = JsValue.num 1)
    ∧ (mergeF 2 [.obj [(.symK ⟨0, true⟩, .num 1)]]).hasKeyV (.symK ⟨0, true⟩) = false := by
  constructor
  · rfl
  · simp [mergeF, mergeArgs, mergeEntries, ownStringEntries, JsValue.hasKeyV, hasProp]

/-! ### The mapOptionFieldNames wrapper recursion -/

/-- Recursing through `mapOptionFieldNames({ where: v }, Model).where` with
a plain-object `v` is exactly `mapWhereFieldNames(v, Model)`: the wrapper
options object has no attributes array and a truthy plain-object where. -/
theorem mapOption_where_unfold (fuel : Nat) (v : JsValue) (M : Model)
    (h : v.isPlainObject = true) :
    (mapOptionFieldNamesF fuel ⟨.undefined, v⟩ M).whereClause = mapWhereFieldNamesF fuel v M := by
  cases v <;> simp_all [mapOptionFieldNamesF, JsValue.isArray, JsValue.truthy,
    JsValue.isPlainObject]

/-- C5 (corrected): counterexample to the no-mutation claim.
`mapOptionFieldNames` returns its `options` argument itself (the embedded
function yields the argument object's post-state), yet the value differs
from the input, so the caller's object has been mutated. -/
theorem C5_mapOptionFieldNames_mutates :
    mapOptionFieldNamesF 1 ⟨.arr [.str "a"], .undefined⟩
        ⟨[("a", ⟨"a_col", "a", .plainKind⟩)], []⟩
      ≠ ⟨.arr [.str "a"], .undefined⟩ := by
  have e : mapOptionFieldNamesF 1 ⟨.arr [.str "a"], .undefined⟩
      ⟨[("a", ⟨"a_col", "a", .plainKind⟩)], []⟩
      = ⟨.arr [.arr [.str "a_col", .str "a"]], .undefined⟩ := by
    simp [mapOptionFieldNamesF, attrMapEntry, lookupRawAttr, JsValue.isArray,
      JsValue.truthy, List.find?]
  rw [e]
  intro h
  simp at h

/-- C5 (corrected, amended).  The utilities are deterministic
transformations, but `mapOptionFieldNames` is not mutation-free: it
reassigns the `attributes` and `where` properties of its `options`
argument and returns that same object — the returned value and the
argument's post-state coincide, and both equal the direct translation
`mapOptionFieldNamesF`. -/
theorem C5_returns_mutated_argument (fuel : Nat) (opts : FinderOptions) (M : Model) :
    (mapOptionFieldNamesSt fuel opts M).1 = (mapOptionFieldNamesSt fuel opts M).2
    ∧ (mapOptionFieldNamesSt fuel opts M).1 = mapOptionFieldNamesF fuel opts M :=
  ⟨rfl, rfl⟩

/-- C6 (confirmed).  Malformed or falsy inputs flow through without error:
`mapWhereFieldNames` returns a falsy argument unchanged,
`flattenObjectDeep` returns a non-plain-object argument unchanged, and
`cloneDeep` turns a falsy argument into a fresh empty object; all the
embedded utilities are total functions. -/
theorem C6_malformed_inputs :
    (∀ (fuel : Nat) (v : JsValue) (M : Model), v.truthy = false →
        mapWhereFieldNamesF fuel v M = v)
    ∧ (∀ v : JsValue, v.isPlainObject = false → flattenObjectDeep v = v)
    ∧ (∀ (v : JsValue) (op : Bool), v.truthy = false → cloneDeep v op = .obj []) := by
  refine ⟨fun fuel v M h => ?_, fun v h => ?_, fun v op h => ?_⟩
  · cases fuel with
    | zero => simp [mapWhereFieldNamesF]
    | succ fuel => simp [mapWhereFieldNamesF, h]
  · simp [flattenObjectDeep, h]
  · simp [cloneDeep, h, cloneRec, cloneRecP]

/-- Witness for `C6_malformed_inputs` at `null`, a number, and `undefined`. -/
theorem C6_malformed_inputs_witness :
    JsValue.null.truthy = false
    ∧ mapWhereFieldNamesF 5 .null ⟨[], []⟩ = .null
    ∧ (JsValue.num 3).isPlainObject = false
    ∧ flattenObjectDeep (.num 3) = .num 3
    ∧ cloneDeep .undefined false = .obj [] :=
  ⟨rfl, C6_malformed_inputs.1 5 .null ⟨[], []⟩ rfl, rfl,
    C6_malformed_inputs.2.1 (.num 3) rfl, C6_malformed_inputs.2.2 .undefined false rfl⟩

/-! ### Lexicographic string comparison -/

theorem lexLt_asymm : ∀ a b : List Char, lexLt a b = true → lexLt b a = false
  | [], [], h => by simp [lexLt] at h
  | [], _ :: _, _ => rfl
  | _ :: _, [], h => by simp [lexLt] at h
  | c :: cs, d :: ds, h => by
      by_cases hcd : c < d
      · have hdc : ¬ d < c := lt_asymm hcd
        simp [lexLt, hdc, hcd]
      · by_cases hdc : d < c
        · simp [lexLt, hcd, hdc] at h
        · simp only [lexLt, hcd, hdc, if_false] at h ⊢
          exact lexLt_asymm cs ds h

theorem lexLt_total_of_ne : ∀ a b : List Char, a ≠ b → lexLt a b = false → lexLt b a = true
  | [], [], hne, _ => absurd rfl hne
  | [], _ :: _, _, h => by simp [lexLt] at h
  | _ :: _, [], _, _ => rfl
  | c :: cs, d :: ds, hne, h => by
      by_cases hcd : c < d
      · simp [lexLt, hcd] at h
      · by_cases hdc : d < c
        · simp [lexLt, hdc]
        · have hcd' : c = d := le_antisymm (not_lt.mp hdc) (not_lt.mp hcd)
          have hne' : cs ≠ ds := fun e => hne (by rw [hcd', e])
          simp only [lexLt, hcd, hdc, if_false] at h ⊢
          exact lexLt_total_of_ne cs ds hne' h

/-- C8 (confirmed).  `combineTableNames` is commutative whenever the
lowercased names differ: the lexicographically smaller lowercased name is
always concatenated first. -/
theorem C8_combineTableNames_comm (t1 t2 : String)
    (h : jsToLower t1 ≠ jsToLower t2) :
    combineTableNames t1 t2 = combineTableNames t2 t1 := by
  have hd : (jsToLower t1).data ≠ (jsToLower t2).data := by
    intro e
    exact h (congrArg String.mk e)
  unfold combineTableNames jsStrLt
  by_cases hlt : lexLt (jsToLower t1).data (jsToLower t2).data = true
  · rw [if_pos hlt, if_neg (by rw [lexLt_asymm _ _ hlt]; simp)]
  · have h21 : lexLt (jsToLower t2).data (jsToLower t1).data = true :=
      lexLt_total_of_ne _ _ hd (by simpa using hlt)
    rw [if_neg (by simpa using hlt), if_pos h21]

/-- Witness for `C8_combineTableNames_comm` on two concrete table names. -/
theorem C8_combineTableNames_comm_witness :
    jsToLower "Users" ≠ jsToLower "Tasks"
    ∧ combineTableNames "Users" "Tasks" = combineTableNames "Tasks" "Users" :=
  ⟨by decide, C8_combineTableNames_comm "Users" "Tasks" (by decide)⟩

/-- C2 (code bug).  The array-recursion loop of `mapWhereFieldNames` reads
`attributes[i]` and bounds itself by `attributes.length` — the outer
object — instead of the array value it guards on, so on a plain-object
where-clause it performs zero iterations: the plain-object element of the
array under `status` keeps its logical key `user`, although calling the
function on that element directly rewrites it to `user_id`. -/
theorem C2_array_elements_not_rewritten :
    mapWhereFieldNamesF 5
      (.obj [(.strK "status", .arr [.obj [(.strK "user", .num 1)]])])
      ⟨[("user", ⟨"user_id", "user", .plainKind⟩)], []⟩
    = .obj [(.strK "status", .arr [.obj [(.strK "user", .num 1)]])]
    ∧ mapWhereFieldNamesF 5 (.obj [(.strK "user", .num 1)])
        ⟨[("user", ⟨"user_id", "user", .plainKind⟩)], []⟩
      = .obj [(.strK "user_id", .num 1)] := by
  constructor <;>
    simp [mapWhereFieldNamesF, whereKeys, whereKeyStep, whereKeyRename, whereKeyRecurse,
      whereKeyArr, whereArrLoop, cloneDeep,
      cloneRec, cloneRecL, cloneRecP,
      JsValue.getComplexKeys, JsValue.getOperators, JsValue.objectKeys, lookupRawAttr,
      skipHstoreJson, JsValue.getPropV, JsValue.setPropV, JsValue.delPropV, getProp, setProp,
      delProp, hasProp, JsValue.truthy, JsValue.isPlainObject, JsValue.isArray,
      JsValue.jsLengthOf]

/-! ### C4: attribute aliasing in mapOptionFieldNames -/

theorem attrMapEntry_eq_spec (M : Model) (v : JsValue) :
    attrMapEntry M v = specAttrEntry M v := by
  cases v <;> simp [attrMapEntry, specAttrEntry]
  rename_i s
  cases lookupRawAttr M (.strK s) with
  | none => rfl
  | some ra =>
      by_cases hf : s = ra.field
      · simp [hf]
      · have hf' : ¬ ra.field = s := fun e => hf (Eq.symm e)
        simp [hf, hf']

/-- C4 (confirmed).  When `options.attributes` is an array,
`mapOptionFieldNames` maps it entry-wise through the claim's description:
a string entry with a raw attribute whose physical field differs becomes
the aliased pair `[field, attr]`; every other entry is unchanged. -/
theorem C4_attributes_aliasing (fuel : Nat) (opts : FinderOptions) (M : Model)
    (xs : List JsValue) (h : opts.attributes = .arr xs) :
    (mapOptionFieldNamesF fuel opts M).attributes = .arr (xs.map (specAttrEntry M)) := by
  have hmap : xs.map (attrMapEntry M) = xs.map (specAttrEntry M) :=
    List.map_congr_left (fun v _ => attrMapEntry_eq_spec M v)
  simp only [mapOptionFieldNamesF, h, JsValue.isArray, if_pos]
  split <;> simp [hmap]

/-- Witness for `C4_attributes_aliasing`: a mapped string attribute, an
unchanged one, and a non-string entry. -/
theorem C4_attributes_aliasing_witness :
    (mapOptionFieldNamesF 1 ⟨.arr [.str "a", .str "z", .num 7], .undefined⟩
        ⟨[("a", ⟨"a_col", "a", .plainKind⟩)], []⟩).attributes
      = .arr [.arr [.str "a_col", .str "a"], .str "z", .num 7] := by
  rw [C4_attributes_aliasing 1 _ _ [.str "a", .str "z", .num 7] rfl]
  simp [specAttrEntry, lookupRawAttr, List.find?]

/-! ### C9: removeNullValuesFromHash -/

theorem hasProp_append (l1 l2 : JsProps) (k : JsKey) :
    hasProp (l1 ++ l2) k = (hasProp l1 k || hasProp l2 k) := by
  induction l1 with
  | nil => simp [hasProp]
  | cons q qs ih => simp [hasProp, ih, Bool.or_assoc]

theorem setProp_of_not_has (ps : JsProps) (k : JsKey) (v : JsValue)
    (h : hasProp ps k = false) : setProp ps k v = ps ++ [(k, v)] := by
  induction ps with
  | nil => simp [setProp]
  | cons q qs ih =>
      simp only [hasProp, Bool.or_eq_false_iff, decide_eq_false_iff_not] at h
      simp [setProp, h.1, ih h.2]

theorem omitNullLoop_strKeys (allowNull : List String) :
    ∀ (ps : List (String × JsValue)) (acc : JsProps),
    (∀ p ∈ ps, hasProp acc (.strK p.1) = false) → (ps.map Prod.fst).Nodup →
    omitNullLoop allowNull (ps.map (fun p => (.strK p.1, p.2))) acc
      = acc ++ (ps.filter (fun p => keepHashEntry allowNull p.1 p.2)).map
          (fun p => (.strK p.1, p.2)) := by
  intro ps
  induction ps with
  | nil => intro acc _ _; simp [omitNullLoop]
  | cons a ps ih =>
      intro acc hdis hnd
      simp only [List.map_cons, omitNullLoop]
      simp only [List.map_cons, List.nodup_cons] at hnd
      by_cases hk : keepHashEntry allowNull a.1 a.2
      · rw [if_pos hk, setProp_of_not_has _ _ _ (hdis a (by simp))]
        have hdis' : ∀ p ∈ ps,
            hasProp (acc ++ [(JsKey.strK a.1, a.2)]) (.strK p.1) = false := by
          intro p hp
          rw [hasProp_append]
          have h1 : hasProp acc (.strK p.1) = false := hdis p (by simp [hp])
          have h2 : ¬ (JsKey.strK a.1 = JsKey.strK p.1) := by
            intro e
            apply hnd.1
            have e' : a.1 = p.1 := by injection e
            exact e' ▸ List.mem_map_of_mem Prod.fst hp
          simp [h1, hasProp, h2]
        rw [ih (acc ++ [(JsKey.strK a.1, a.2)]) hdis' hnd.2]
        simp [hk, List.append_assoc]
      · rw [if_neg hk]
        rw [ih acc (fun p hp => hdis p (by simp [hp])) hnd.2]
        simp [hk]

/-- C9 (confirmed).  With `omitNull` false, `removeNullValuesFromHash`
returns the hash argument itself; with `omitNull` true it returns an
object with exactly the entries of the (string-keyed, duplicate-free)
hash whose key is allow-listed or ends with `Id`, or whose value is
neither `null` nor `undefined`, each with its original value. -/
theorem C9_removeNullValues :
    (∀ (hash : JsValue) (allowNull : List String),
        removeNullValuesFromHash hash false allowNull = hash)
    ∧ (∀ (ps : List (String × JsValue)) (allowNull : List String),
        (ps.map Prod.fst).Nodup →
        removeNullValuesFromHash (.obj (ps.map (fun p => (.strK p.1, p.2)))) true allowNull
          = .obj ((ps.filter (fun p =>
              allowNull.contains p.1 || strEndsWith p.1 "Id"
                || (!isNull p.2 && !isUndefined p.2))).map (fun p => (.strK p.1, p.2)))) := by
  constructor
  · intro hash allowNull
    simp [removeNullValuesFromHash]
  · intro ps allowNull hnd
    simp only [removeNullValuesFromHash, if_pos]
    rw [omitNullLoop_strKeys allowNull ps [] (fun p _ => rfl) hnd]
    rfl

/-- Witness for `C9_removeNullValues`: a null value dropped, a null value
kept under an `Id`-suffixed key, and a defined value kept. -/
theorem C9_removeNullValues_witness :
    removeNullValuesFromHash (.obj [(.strK "x", .num 4)]) false ["a"]
        = .obj [(.strK "x", .num 4)]
    ∧ ([("a", JsValue.null), ("bId", JsValue.null), ("c", JsValue.num 0)].map
        Prod.fst).Nodup
    ∧ removeNullValuesFromHash
        (.obj [(.strK "a", .null), (.strK "bId", .null), (.strK "c", .num 0)]) true []
      = .obj [(.strK "bId", .null), (.strK "c", .num 0)] := by
  refine ⟨C9_removeNullValues.1 _ ["a"], by decide, ?_⟩
  have h := C9_removeNullValues.2
    [("a", JsValue.null), ("bId", JsValue.null), ("c", JsValue.num 0)] [] (by decide)
  simp only [List.map_cons, List.map_nil] at h
  rw [h]
  rfl

/-! ### C10: mapValueFieldNames -/

theorem valueLoop_frame (dv : List (String × JsValue)) (M : Model) :
    ∀ (fields : List String) (values : JsProps) (k : JsKey),
    (∀ attr ∈ fields, valueQualifies dv M attr = true → JsKey.strK (valueKeyOf M attr) ≠ k) →
    getProp (valueLoop dv M fields values) k = getProp values k := by
  intro fields
  induction fields with
  | nil => intro values k _; simp [valueLoop]
  | cons attr fields ih =>
      intro values k hframe
      simp only [valueLoop]
      by_cases hq : (!isUndefined (getStrD dv attr) && !M.virtualAttributes.contains attr) = true
      · rw [if_pos hq]
        rw [ih _ k (fun b hb hqb => hframe b (by simp [hb]) hqb)]
        exact getProp_setProp_ne _ _ _ _
          (fun e => hframe attr (by simp) (by simpa [valueQualifies] using hq) e.symm)
      · rw [if_neg hq]
        exact ih _ k (fun b hb hqb => hframe b (by simp [hb]) hqb)

theorem valueLoop_keys (dv : List (String × JsValue)) (M : Model) :
    ∀ (fields : List String) (values : JsProps) (k : JsKey),
    hasProp (valueLoop dv M fields values) k = true →
    hasProp values k = true
    ∨ ∃ attr, attr ∈ fields ∧ valueQualifies dv M attr = true
        ∧ k = .strK (valueKeyOf M attr) := by
  intro fields
  induction fields with
  | nil => intro values k h; exact Or.inl (by simpa [valueLoop] using h)
  | cons attr fields ih =>
      intro values k h
      simp only [valueLoop] at h
      by_cases hq : (!isUndefined (getStrD dv attr) && !M.virtualAttributes.contains attr) = true
      · rw [if_pos hq] at h
        rcases ih _ k h with h1 | ⟨b, hb, hqb, hkb⟩
        · rw [hasProp_setProp] at h1
          rcases Bool.or_eq_true_iff.mp h1 with h2 | h2
          · exact Or.inl h2
          · refine Or.inr ⟨attr, by simp, by simpa [valueQualifies] using hq, ?_⟩
            exact (decide_eq_true_eq.mp h2).symm
        · exact Or.inr ⟨b, by simp [hb], hqb, hkb⟩
      · rw [if_neg hq] at h
        rcases ih _ k h with h1 | ⟨b, hb, hqb, hkb⟩
        · exact Or.inl h1
        · exact Or.inr ⟨b, by simp [hb], hqb, hkb⟩

theorem valueLoop_found (dv : List (String × JsValue)) (M : Model) :
    ∀ (fields : List String) (values : JsProps) (a : String),
    a ∈ fields → valueQualifies dv M a = true → fields.Nodup →
    (∀ b ∈ fields, valueQualifies dv M b = true →
        valueKeyOf M b = valueKeyOf M a → b = a) →
    getProp (valueLoop dv M fields values) (.strK (valueKeyOf M a)) = some (getStrD dv a) := by
  intro fields
  induction fields with
  | nil => intro _ a ha; cases ha
  | cons attr fields ih =>
      intro values a ha hqa hnd hinj
      simp only [List.nodup_cons] at hnd
      rcases List.mem_cons.mp ha with rfl | hmem
      · simp only [valueLoop]
        rw [if_pos (by simpa [valueQualifies] using hqa)]
        rw [valueLoop_frame dv M fields _ _ ?_]
        · exact getProp_setProp_self _ _ _
        · intro b hb hqb e
          have hba : b = a := hinj b (by simp [hb]) hqb (by injection e)
          exact hnd.1 (hba ▸ hb)
      · simp only [valueLoop]
        by_cases hq : (!isUndefined (getStrD dv attr) && !M.virtualAttributes.contains attr) = true
        · rw [if_pos hq]
          exact ih _ a hmem hqa hnd.2
            (fun b hb hqb e => hinj b (by simp [hb]) hqb e)
        · rw [if_neg hq]
          exact ih _ a hmem hqa hnd.2
            (fun b hb hqb e => hinj b (by simp [hb]) hqb e)

theorem valueLoop_sym (dv : List (String × JsValue)) (M : Model) :
    ∀ (fields : List String) (values : JsProps) (t : JsSym),
    hasProp (valueLoop dv M fields values) (.symK t) = hasProp values (.symK t) := by
  intro fields
  induction fields with
  | nil => intro values t; simp [valueLoop]
  | cons attr fields ih =>
      intro values t
      simp only [valueLoop]
      by_cases hq : (!isUndefined (getStrD dv attr) && !M.virtualAttributes.contains attr) = true
      · rw [if_pos hq, ih, hasProp_setProp]
        simp
      · rw [if_neg hq, ih]

/-- C10 (confirmed, under the claim's implicit assumption that the listed
fields are distinct and map to distinct physical keys).  The result of
`mapValueFieldNames` has exactly one entry per listed field whose data
value is defined and which is not virtual, keyed by the attribute's truthy
physical field name when it differs from the attribute and by the
attribute itself otherwise, carrying `dataValues[attr]`; no other keys
(string or symbol) appear. -/
theorem C10_mapValueFieldNames (dv : List (String × JsValue)) (fields : List String)
    (M : Model) (hnd : fields.Nodup)
    (hinj : ∀ a b, a ∈ fields → b ∈ fields → valueQualifies dv M a = true →
        valueQualifies dv M b = true → valueKeyOf M a = valueKeyOf M b → a = b) :
    (∀ a ∈ fields, valueQualifies dv M a = true →
        (mapValueFieldNames dv fields M).getPropV (.strK (valueKeyOf M a)) = getStrD dv a)
    ∧ (∀ k, (mapValueFieldNames dv fields M).hasKeyV (.strK k) = true →
        ∃ a, a ∈ fields ∧ valueQualifies dv M a = true ∧ valueKeyOf M a = k)
    ∧ (∀ t, (mapValueFieldNames dv fields M).hasKeyV (.symK t) = false) := by
  refine ⟨fun a ha hqa => ?_, fun k hk => ?_, fun t => ?_⟩
  · simp only [mapValueFieldNames, JsValue.getPropV]
    rw [valueLoop_found dv M fields [] a ha hqa hnd
      (fun b hb hqb e => hinj b a hb ha hqb hqa e)]
    rfl
  · simp only [mapValueFieldNames, JsValue.hasKeyV] at hk
    rcases valueLoop_keys dv M fields [] (.strK k) hk with h1 | ⟨a, ha, hqa, hka⟩
    · simp [hasProp] at h1
    · exact ⟨a, ha, hqa, by injection hka.symm⟩
  · simp only [mapValueFieldNames, JsValue.hasKeyV]
    rw [valueLoop_sym]
    rfl

/-- Witness for `C10_mapValueFieldNames`: a renamed attribute, a virtual
attribute that is dropped, and an unlisted data value that does not
appear. -/
theorem C10_mapValueFieldNames_witness :
    (["a", "v", "z"] : List String).Nodup
    ∧ (mapValueFieldNames [("a", .num 1), ("v", .num 2)] ["a", "v", "z"]
        ⟨[("a", ⟨"a_col", "a", .plainKind⟩)], ["v"]⟩).getPropV
          (.strK (valueKeyOf ⟨[("a", ⟨"a_col", "a", .plainKind⟩)], ["v"]⟩ "a"))
      = getStrD [("a", .num 1), ("v", .num 2)] "a"
    ∧ (mapValueFieldNames [("a", .num 1), ("v", .num 2)] ["a", "v", "z"]
        ⟨[("a", ⟨"a_col", "a", .plainKind⟩)], ["v"]⟩).hasKeyV (.strK "v") = false := by
  refine ⟨by decide, ?_, ?_⟩
  · exact (C10_mapValueFieldNames [("a", .num 1), ("v", .num 2)] ["a", "v", "z"]
      ⟨[("a", ⟨"a_col", "a", .plainKind⟩)], ["v"]⟩ (by decide)
      (by
        intro a b ha hb hqa hqb e
        simp only [List.mem_cons, List.not_mem_nil, or_false] at ha hb
        rcases ha with rfl | rfl | rfl <;> rcases hb with rfl | rfl | rfl <;>
          first
            | rfl
            | (revert hqa hqb e; decide))).1 "a" (by simp) (by decide)
  · rfl

/-! ### C7: flattenObjectDeep -/

mutual

theorem flattenRec_eq : ∀ (v : JsValue) (sp : Option String) (acc : List (String × JsValue)),
    flattenRec v sp acc = (leafEntries v sp).foldl (fun a p => setStrProp a p.1 p.2) acc
  | .obj ps, sp, acc => by
      simp only [flattenRec, leafEntries]
      exact flattenRecP_eq ps sp acc
  | .arr xs, sp, acc => by
      simp only [flattenRec, leafEntries]
      exact flattenRecL_eq xs 0 sp acc
  | .undefined, _, _ => rfl
  | .null, _, _ => rfl
  | .bool _, _, _ => rfl
  | .num _, _, _ => rfl
  | .str _, _, _ => rfl
  | .other _, _, _ => rfl
  | .func _ _ _, _, _ => rfl

theorem flattenRecP_eq : ∀ (ps : JsProps) (sp : Option String) (acc : List (String × JsValue)),
    flattenRecP ps sp acc = (leafEntriesP ps sp).foldl (fun a p => setStrProp a p.1 p.2) acc
  | [], _, _ => rfl
  | (.strK key, v) :: ps, sp, acc => by
      simp only [flattenRecP, leafEntriesP, List.foldl_append]
      by_cases hv : v.isObjTyped
      · simp only [hv, if_pos, if_true]
        rw [flattenRec_eq v (some (joinPath sp key)) acc, flattenRecP_eq ps sp _]
      · simp only [hv, if_neg, Bool.false_eq_true, if_false, List.foldl_cons, List.foldl_nil]
        rw [flattenRecP_eq ps sp _]
  | (.symK t, v) :: ps, sp, acc => by
      simp only [flattenRecP, leafEntriesP]
      exact flattenRecP_eq ps sp acc

theorem flattenRecL_eq : ∀ (xs : List JsValue) (i : Nat) (sp : Option String)
    (acc : List (String × JsValue)),
    flattenRecL xs i sp acc = (leafEntriesL xs i sp).foldl (fun a p => setStrProp a p.1 p.2) acc
  | [], _, _, _ => rfl
  | x :: xs, i, sp, acc => by
      simp only [flattenRecL, leafEntriesL, List.foldl_append]
      by_cases hx : x.isObjTyped
      · simp only [hx, if_pos, if_true]
        rw [flattenRec_eq x (some (joinPath sp (toString i))) acc, flattenRecL_eq xs (i+1) sp _]
      · simp only [hx, if_neg, Bool.false_eq_true, if_false, List.foldl_cons, List.foldl_nil]
        rw [flattenRecL_eq xs (i+1) sp _]

end

mutual

theorem leafEntries_leaf : ∀ (v : JsValue) (sp : Option String) (p : String × JsValue),
    p ∈ leafEntries v sp → p.2.isObjTyped = false
  | .obj ps, sp, p, hp => leafEntriesP_leaf ps sp p hp
  | .arr xs, sp, p, hp => leafEntriesL_leaf xs 0 sp p hp
  | .undefined, _, _, hp => absurd hp (by simp [leafEntries])
  | .null, _, _, hp => absurd hp (by simp [leafEntries])
  | .bool _, _, _, hp => absurd hp (by simp [leafEntries])
  | .num _, _, _, hp => absurd hp (by simp [leafEntries])
  | .str _, _, _, hp => absurd hp (by simp [leafEntries])
  | .other _, _, _, hp => absurd hp (by simp [leafEntries])
  | .func _ _ _, _, _, hp => absurd hp (by simp [leafEntries])

theorem leafEntriesP_leaf : ∀ (ps : JsProps) (sp : Option String) (p : String × JsValue),
    p ∈ leafEntriesP ps sp → p.2.isObjTyped = false
  | [], _, _, hp => absurd hp (by simp [leafEntriesP])
  | (.strK key, v) :: ps, sp, p, hp => by
      simp only [leafEntriesP, List.mem_append] at hp
      rcases hp with hp | hp
      · by_cases hv : v.isObjTyped
        · rw [if_pos hv] at hp
          exact leafEntries_leaf v _ p hp
        · rw [if_neg hv] at hp
          simp only [List.mem_singleton] at hp
          rw [hp]
          simpa using hv
      · exact leafEntriesP_leaf ps sp p hp
  | (.symK t, v) :: ps, sp, p, hp => leafEntriesP_leaf ps sp p hp

theorem leafEntriesL_leaf : ∀ (xs : List JsValue) (i : Nat) (sp : Option String)
    (p : String × JsValue), p ∈ leafEntriesL xs i sp → p.2.isObjTyped = false
  | [], _, _, _, hp => absurd hp (by simp [leafEntriesL])
  | x :: xs, i, sp, p, hp => by
      simp only [leafEntriesL, List.mem_append] at hp
      rcases hp with hp | hp
      · by_cases hx : x.isObjTyped
        · rw [if_pos hx] at hp
          exact leafEntries_leaf x _ p hp
        · rw [if_neg hx] at hp
          simp only [List.mem_singleton] at hp
          rw [hp]
          simpa using hx
      · exact leafEntriesL_leaf xs (i+1) sp p hp

end

theorem mem_setStrProp (acc : List (String × JsValue)) (k : String) (v : JsValue)
    (q : String × JsValue) (hq : q ∈ setStrProp acc k v) : q ∈ acc ∨ q = (k, v) := by
  induction acc with
  | nil => simpa [setStrProp] using hq
  | cons a acc ih =>
      by_cases ha : a.1 = k
      · simp only [setStrProp, ha, if_pos, if_true, List.mem_cons] at hq
        rcases hq with hq | hq
        · exact Or.inr hq
        · exact Or.inl (List.mem_cons_of_mem a hq)
      · simp only [setStrProp, ha, if_neg, if_false, List.mem_cons] at hq
        rcases hq with hq | hq
        · exact Or.inl (by simp [hq])
        · rcases ih hq with h | h
          · exact Or.inl (List.mem_cons_of_mem a h)
          · exact Or.inr h

theorem setStrProp_key_mem (acc : List (String × JsValue)) (k k0 : String) (v : JsValue)
    (h : ∃ w, (k0, w) ∈ acc) : ∃ w, (k0, w) ∈ setStrProp acc k v := by
  induction acc with
  | nil => simp at h
  | cons a acc ih =>
      obtain ⟨w, hw⟩ := h
      by_cases ha : a.1 = k
      · simp only [setStrProp, ha, if_pos, if_true]
        rcases List.mem_cons.mp hw with hw | hw
        · by_cases hk0 : k0 = k
          · exact ⟨v, by simp [hk0]⟩
          · have : a.1 = k0 := by rw [← hw]
            exact absurd (this ▸ ha : k0 = k) hk0
        · exact ⟨w, List.mem_cons_of_mem _ hw⟩
      · simp only [setStrProp, ha, if_neg, if_false]
        rcases List.mem_cons.mp hw with hw | hw
        · exact ⟨w, by simp [hw]⟩
        · obtain ⟨w', hw'⟩ := ih ⟨w, hw⟩
          exact ⟨w', List.mem_cons_of_mem _ hw'⟩

theorem setStrProp_self_mem (acc : List (String × JsValue)) (k : String) (v : JsValue) :
    (k, v) ∈ setStrProp acc k v := by
  induction acc with
  | nil => simp [setStrProp]
  | cons a acc ih =>
      by_cases ha : a.1 = k
      · simp [setStrProp, ha]
      · simp [setStrProp, ha, ih]

theorem foldl_setStr_mem (l : List (String × JsValue)) :
    ∀ (acc : List (String × JsValue)) (q : String × JsValue),
    q ∈ l.foldl (fun a p => setStrProp a p.1 p.2) acc → q ∈ acc ∨ q ∈ l := by
  induction l with
  | nil => intro acc q hq; exact Or.inl (by simpa using hq)
  | cons p l ih =>
      intro acc q hq
      simp only [List.foldl_cons] at hq
      rcases ih _ q hq with h | h
      · rcases mem_setStrProp acc p.1 p.2 q h with h' | h'
        · exact Or.inl h'
        · exact Or.inr (by simp [h'])
      · exact Or.inr (List.mem_cons_of_mem p h)

theorem foldl_setStr_key_mem (l : List (String × JsValue)) :
    ∀ (acc : List (String × JsValue)) (k : String), (∃ w, (k, w) ∈ acc) →
    ∃ w, (k, w) ∈ l.foldl (fun a p => setStrProp a p.1 p.2) acc := by
  induction l with
  | nil => intro acc k h; simpa using h
  | cons r l ih =>
      intro acc k h
      simp only [List.foldl_cons]
      exact ih _ k (setStrProp_key_mem acc r.1 k r.2 h)

theorem foldl_setStr_covers (l : List (String × JsValue)) :
    ∀ (acc : List (String × JsValue)) (q : String × JsValue), q ∈ l →
    ∃ w, (q.1, w) ∈ l.foldl (fun a p => setStrProp a p.1 p.2) acc := by
  induction l with
  | nil => intro acc q hq; cases hq
  | cons p l ih =>
      intro acc q hq
      simp only [List.foldl_cons]
      rcases List.mem_cons.mp hq with hq | hq
      · -- the entry is assigned here and its key survives every later step
        exact foldl_setStr_key_mem l _ q.1 ⟨p.2, hq ▸ setStrProp_self_mem acc p.1 p.2⟩
      · exact ih _ q hq

/-- C7 (confirmed).  For a plain-object input, `flattenObjectDeep` produces
exactly the claim's flat object: the imperative accumulator equals the
dot-joined root-to-leaf entries assigned in traversal order (the JS
last-assignment-wins semantics of the shared accumulator); every entry of
the result is one of those leaf entries, its value not a non-null
`typeof`-object; and every leaf path's key occurs in the result. -/
theorem C7_flatten_depth_one (v : JsValue) (hp : v.isPlainObject = true) :
    flattenObjectDeep v
      = .obj (((leafEntries v none).foldl (fun a p => setStrProp a p.1 p.2) []).map
          (fun p => (.strK p.1, p.2)))
    ∧ (∀ p, p ∈ flattenRec v none [] → p ∈ leafEntries v none ∧ p.2.isObjTyped = false)
    ∧ (∀ q ∈ leafEntries v none, ∃ w, (q.1, w) ∈ flattenRec v none []) := by
  refine ⟨?_, fun p hp' => ?_, fun q hq => ?_⟩
  · simp only [flattenObjectDeep, hp, Bool.not_true, Bool.false_eq_true, if_false]
    rw [flattenRec_eq]
  · rw [flattenRec_eq] at hp'
    rcases foldl_setStr_mem _ _ _ hp' with h | h
    · cases h
    · exact ⟨h, leafEntries_leaf v none p h⟩
  · rw [flattenRec_eq]
    exact foldl_setStr_covers _ _ q hq

/-- Witness for `C7_flatten_depth_one` on the doc-comment example shape. -/
theorem C7_flatten_depth_one_witness :
    (JsValue.obj [(.strK "name", .str "John"),
        (.strK "address", .obj [(.strK "street", .str "Fake")])]).isPlainObject = true
    ∧ flattenObjectDeep
        (.obj [(.strK "name", .str "John"),
          (.strK "address", .obj [(.strK "street", .str "Fake")])])
      = .obj [(.strK "name", .str "John"), (.strK "address.street", .str "Fake")] := by
  refine ⟨rfl, ?_⟩
  rw [(C7_flatten_depth_one
    (.obj [(.strK "name", .str "John"),
      (.strK "address", .obj [(.strK "street", .str "Fake")])]) rfl).1]
  rfl

/-! ### C3: frame lemmas for the mapWhereFieldNames loop -/

theorem getPropV_obj (ps : JsProps) (k : JsKey) :
    (JsValue.obj ps).getPropV k = (getProp ps k).getD .undefined := rfl

theorem whereArrLoop_obj (fuel : Nat) (M : Model) (k : JsKey) :
    ∀ (bound i : Nat) (ps : JsProps),
    ∃ rs, whereArrLoop fuel M k bound i (.obj ps) = .obj rs := by
  intro bound
  induction bound with
  | zero => intro i ps; exact ⟨ps, by simp [whereArrLoop]⟩
  | succ bound ih =>
      intro i ps
      simp only [whereArrLoop]
      by_cases hlen : i < (JsValue.obj ps).jsLengthOf
      · rw [if_pos hlen]
        by_cases hw : ((JsValue.obj ps).getPropV (.strK (toString i))).isPlainObject
        · rw [if_pos hw]
          simp only [JsValue.setPropV]
          exact ih (i+1) _
        · rw [if_neg hw]
          exact ih (i+1) ps
      · rw [if_neg hlen]
        exact ⟨ps, rfl⟩

theorem whereArrLoop_frame (fuel : Nat) (M : Model) (k' k : JsKey) (hne : k ≠ k') :
    ∀ (bound i : Nat) (ps : JsProps),
    (whereArrLoop fuel M k' bound i (.obj ps)).getPropV k = (JsValue.obj ps).getPropV k := by
  intro bound
  induction bound with
  | zero => intro i ps; simp [whereArrLoop]
  | succ bound ih =>
      intro i ps
      simp only [whereArrLoop]
      by_cases hlen : i < (JsValue.obj ps).jsLengthOf
      · rw [if_pos hlen]
        by_cases hw : ((JsValue.obj ps).getPropV (.strK (toString i))).isPlainObject
        · rw [if_pos hw]
          simp only [JsValue.setPropV]
          rw [ih (i+1) _]
          simp only [getPropV_obj]
          rw [getProp_setProp_ne _ _ _ _ hne]
        · rw [if_neg hw]
          exact ih (i+1) ps
      · rw [if_neg hlen]


theorem whereKeyRename_obj (M : Model) (ps : JsProps) (k : JsKey) :
    ∃ rs, whereKeyRename M (.obj ps) k = .obj rs := by
  simp only [whereKeyRename, JsValue.setPropV, JsValue.delPropV]
  repeat' split
  all_goals exact ⟨_, rfl⟩

theorem whereKeyRename_frame (M : Model) (ps : JsProps) (k' k : JsKey) (hne : k ≠ k')
    (hren : ∀ ra', lookupRawAttr M k' = some ra' → ra'.field ≠ ra'.fieldName →
        k ≠ .strK ra'.field) :
    (whereKeyRename M (.obj ps) k').getPropV k = (JsValue.obj ps).getPropV k := by
  rcases hra : lookupRawAttr M k' with _ | ra
  · simp [whereKeyRename, hra]
  · simp only [whereKeyRename, hra]
    by_cases hc : ra.field ≠ ra.fieldName
    · rw [if_pos hc]
      simp only [JsValue.setPropV, JsValue.delPropV, getPropV_obj]
      rw [getProp_delProp_ne _ _ _ hne, getProp_setProp_ne _ _ _ _ (hren ra hra hc)]
    · rw [if_neg hc]

theorem whereKeyRecurse_obj (fuel : Nat) (M : Model) (ps : JsProps) (k : JsKey) :
    ∃ rs, whereKeyRecurse fuel M (.obj ps) k = .obj rs := by
  simp only [whereKeyRecurse]
  split
  · exact ⟨_, rfl⟩
  · exact ⟨ps, rfl⟩

theorem whereKeyRecurse_frame (fuel : Nat) (M : Model) (ps : JsProps) (k' k : JsKey)
    (hne : k ≠ k') :
    (whereKeyRecurse fuel M (.obj ps) k').getPropV k = (JsValue.obj ps).getPropV k := by
  simp only [whereKeyRecurse]
  split
  · simp only [JsValue.setPropV, getPropV_obj]
    rw [getProp_setProp_ne _ _ _ _ hne]
  · rfl

theorem whereKeyArr_obj (fuel : Nat) (M : Model) (ps : JsProps) (k : JsKey) :
    ∃ rs, whereKeyArr fuel M (.obj ps) k = .obj rs := by
  simp only [whereKeyArr]
  split
  · exact whereArrLoop_obj fuel M k _ 0 ps
  · exact ⟨ps, rfl⟩

theorem whereKeyArr_frame (fuel : Nat) (M : Model) (ps : JsProps) (k' k : JsKey)
    (hne : k ≠ k') :
    (whereKeyArr fuel M (.obj ps) k').getPropV k = (JsValue.obj ps).getPropV k := by
  simp only [whereKeyArr]
  split
  · exact whereArrLoop_frame fuel M k' k hne _ 0 ps
  · rfl

theorem whereKeyStep_obj (fuel : Nat) (M : Model) (ps : JsProps) (k : JsKey) :
    ∃ rs, whereKeyStep fuel M (.obj ps) k = .obj rs := by
  simp only [whereKeyStep]
  obtain ⟨ps1, h1⟩ := whereKeyRename_obj M ps k
  rw [h1]
  obtain ⟨ps2, h2⟩ := whereKeyRecurse_obj fuel M ps1 k
  rw [h2]
  exact whereKeyArr_obj fuel M ps2 k

theorem whereKeyStep_frame (fuel : Nat) (M : Model) (ps : JsProps) (k' k : JsKey)
    (hne : k ≠ k')
    (hren : ∀ ra', lookupRawAttr M k' = some ra' → ra'.field ≠ ra'.fieldName →
        k ≠ .strK ra'.field) :
    (whereKeyStep fuel M (.obj ps) k').getPropV k = (JsValue.obj ps).getPropV k := by
  simp only [whereKeyStep]
  obtain ⟨ps1, h1⟩ := whereKeyRename_obj M ps k'
  obtain ⟨ps2, h2⟩ := whereKeyRecurse_obj fuel M ps1 k'
  rw [h1, h2, whereKeyArr_frame fuel M ps2 k' k hne, ← h2,
    whereKeyRecurse_frame fuel M ps1 k' k hne, ← h1,
    whereKeyRename_frame M ps k' k hne hren]

theorem whereKeys_obj (fuel : Nat) (M : Model) :
    ∀ (ks : List JsKey) (ps : JsProps), ∃ rs, whereKeys fuel M ks (.obj ps) = .obj rs := by
  intro ks
  induction ks with
  | nil => intro ps; exact ⟨ps, by simp [whereKeys]⟩
  | cons kk ks ih =>
      intro ps
      simp only [whereKeys]
      obtain ⟨ps1, h1⟩ := whereKeyStep_obj fuel M ps kk
      rw [h1]
      exact ih ps1

theorem whereKeys_frame (fuel : Nat) (M : Model) (k : JsKey) :
    ∀ (ks : List JsKey) (ps : JsProps),
    (∀ k' ∈ ks, k ≠ k' ∧ ∀ ra', lookupRawAttr M k' = some ra' →
        ra'.field ≠ ra'.fieldName → k ≠ .strK ra'.field) →
    (whereKeys fuel M ks (.obj ps)).getPropV k = (JsValue.obj ps).getPropV k := by
  intro ks
  induction ks with
  | nil => intro ps _; simp [whereKeys]
  | cons kk ks ih =>
      intro ps hcond
      simp only [whereKeys]
      obtain ⟨ps1, h1⟩ := whereKeyStep_obj fuel M ps kk
      rw [h1, ih ps1 (fun k' hk' => hcond k' (by simp [hk'])), ← h1,
        whereKeyStep_frame fuel M ps kk k (hcond kk (by simp)).1 (hcond kk (by simp)).2]

theorem whereKeys_append (fuel : Nat) (M : Model) :
    ∀ (ks1 ks2 : List JsKey) (st : JsValue),
    whereKeys fuel M (ks1 ++ ks2) st = whereKeys fuel M ks2 (whereKeys fuel M ks1 st) := by
  intro ks1
  induction ks1 with
  | nil => intro ks2 st; simp [whereKeys]
  | cons kk ks ih =>
      intro ks2 st
      simp only [List.cons_append, whereKeys]
      exact ih ks2 _

theorem mapWhere_obj (fuel : Nat) (qs : JsProps) (M : Model) :
    ∃ rs, mapWhereFieldNamesF fuel (.obj qs) M = .obj rs := by
  cases fuel with
  | zero => exact ⟨qs, by simp [mapWhereFieldNamesF]⟩
  | succ fuel =>
      have hc : cloneDeep (.obj qs) false = .obj (cloneRecP false qs) := by
        simp [cloneDeep, JsValue.truthy, cloneRec]
      simp only [mapWhereFieldNamesF, JsValue.truthy, Bool.not_true, Bool.false_eq_true,
        if_false, hc]
      exact whereKeys_obj fuel M _ _

theorem whereKeyStep_at_key (fuel : Nat) (M : Model) (ps0 : JsProps) (k : String)
    (qs : JsProps) (hval : getProp ps0 (.strK k) = some (.obj qs))
    (hra : ∀ ra, lookupRawAttr M (.strK k) = some ra → ra.field = ra.fieldName) :
    (whereKeyStep fuel M (.obj ps0) (.strK k)).getPropV (.strK k)
      = if skipHstoreJson (lookupRawAttr M (.strK k)) then .obj qs
        else mapWhereFieldNamesF fuel (.obj qs) M := by
  simp only [whereKeyStep]
  have h1 : whereKeyRename M (.obj ps0) (.strK k) = .obj ps0 := by
    rcases hraw : lookupRawAttr M (.strK k) with _ | ra
    · simp [whereKeyRename, hraw]
    · simp [whereKeyRename, hraw, hra ra hraw]
  rw [h1]
  by_cases hskip : skipHstoreJson (lookupRawAttr M (.strK k)) = true
  · have h2 : whereKeyRecurse fuel M (.obj ps0) (.strK k) = .obj ps0 := by
      simp only [whereKeyRecurse]
      rw [if_neg (by simp [hskip])]
    rw [h2, if_pos hskip]
    simp only [whereKeyArr, getPropV_obj, hval]
    rw [if_neg (by simp [JsValue.isArray])]
    simp [getPropV_obj, hval]
  · have h2 : whereKeyRecurse fuel M (.obj ps0) (.strK k)
        = .obj (setProp ps0 (.strK k) (mapWhereFieldNamesF fuel (.obj qs) M)) := by
      simp only [whereKeyRecurse, getPropV_obj, hval]
      rw [if_pos (by simp [JsValue.isPlainObject, hskip])]
      simp [JsValue.setPropV]
    rw [h2, if_neg hskip]
    obtain ⟨rr, hrr⟩ := mapWhere_obj fuel qs M
    simp only [whereKeyArr, getPropV_obj, getProp_setProp_self, Option.getD_some, hrr]
    rw [if_neg (by simp [JsValue.isArray])]
    simp [getPropV_obj, getProp_setProp_self, hrr]

theorem cloneRecP_keys (op : Bool) (ps : JsProps) :
    (cloneRecP op ps).map Prod.fst = ps.map Prod.fst := by
  induction ps with
  | nil => rfl
  | cons q qs ih =>
      obtain ⟨k, v⟩ := q
      simp [cloneRecP, ih]

theorem getProp_some_mem (ps : JsProps) (k : JsKey) (v : JsValue)
    (h : getProp ps k = some v) : k ∈ ps.map Prod.fst := by
  induction ps with
  | nil => simp [getProp] at h
  | cons q qs ih =>
      by_cases hq : q.1 = k
      · simp [hq]
      · simp only [getProp, hq, if_false] at h
        simp [ih h]

theorem objectKeys_eq (cps : JsProps) :
    (JsValue.obj cps).objectKeys
      = (cps.map Prod.fst).filterMap
          (fun kk => match kk with | JsKey.strK s => some s | _ => none) := by
  induction cps with
  | nil => rfl
  | cons q qs ih =>
      simp only [JsValue.objectKeys, List.map_cons, List.filterMap_cons] at *
      cases q.1 <;> simp_all

theorem mem_objectKeys_iff (cps : JsProps) (k : String) :
    k ∈ (JsValue.obj cps).objectKeys ↔ JsKey.strK k ∈ cps.map Prod.fst := by
  rw [objectKeys_eq, List.mem_filterMap]
  constructor
  · rintro ⟨kk, hkk, hval⟩
    cases kk with
    | strK s =>
        simp only [Option.some.injEq] at hval
        exact hval ▸ hkk
    | symK t => simp at hval
  · intro h
    exact ⟨JsKey.strK k, h, rfl⟩

theorem objectKeys_nodup (cps : JsProps) (hnd : (cps.map Prod.fst).Nodup) :
    ((JsValue.obj cps).objectKeys).Nodup := by
  rw [objectKeys_eq]
  refine List.Nodup.filterMap ?_ hnd
  intro a a' b hb hb'
  cases a <;> cases a' <;> simp_all

theorem mem_getOperators_symK (cps : JsProps) (k' : JsKey)
    (h : k' ∈ (JsValue.obj cps).getOperators) : ∃ t, k' = JsKey.symK t := by
  simp only [JsValue.getOperators, List.mem_filterMap] at h
  obtain ⟨p, _, hval⟩ := h
  cases hp : p.1 with
  | strK s => rw [hp] at hval; simp at hval
  | symK t =>
      rw [hp] at hval
      by_cases ht : t.isOp <;> simp [ht] at hval
      exact ⟨t, hval.symm⟩

theorem lookupRawAttr_symK (M : Model) (t : JsSym) :
    lookupRawAttr M (.symK t) = none := rfl

theorem getD_undef_obj (o : Option JsValue) (x : JsProps)
    (h : o.getD JsValue.undefined = JsValue.obj x) : o = some (.obj x) := by
  cases o with
  | none => simp at h
  | some a => simp_all

/-- C3 (corrected, amended).  For a where-clause key `k` (with duplicate-free
keys) carrying a plain-object value, whose attribute — if any — is not
renamed (`field = fieldName`), and which no other key's rename targets:
when the attribute's type is HSTORE or JSON the result still carries the
deep-cloned value with no rewriting inside, and otherwise the result
carries the recursively rewritten value.  Keys that are renamed
(`field ≠ fieldName`) are excluded: the loop re-reads the deleted original
key and finds `undefined`, so their values are moved without recursion
(see the counterexample). -/
theorem C3_hstore_json_skip (fuel : Nat) (M : Model) (ps : JsProps) (k : String)
    (qs : JsProps)
    (hnd : (ps.map Prod.fst).Nodup)
    (hmem : getProp ps (.strK k) = some (.obj qs))
    (hra : ∀ ra, lookupRawAttr M (.strK k) = some ra → ra.field = ra.fieldName)
    (hframe : ∀ k' ra', k' ∈ ps.map Prod.fst → k' ≠ JsKey.strK k →
        lookupRawAttr M k' = some ra' → ra'.field ≠ ra'.fieldName → ra'.field ≠ k) :
    (mapWhereFieldNamesF (fuel+1) (.obj ps) M).getPropV (.strK k)
      = if skipHstoreJson (lookupRawAttr M (.strK k)) then cloneRec false (.obj qs)
        else mapWhereFieldNamesF fuel (cloneRec false (.obj qs)) M := by
  have hc : cloneDeep (.obj ps) false = .obj (cloneRecP false ps) := by
    simp [cloneDeep, JsValue.truthy, cloneRec]
  have hclone : cloneRec false (JsValue.obj qs) = .obj (cloneRecP false qs) := by
    simp [cloneRec]
  simp only [mapWhereFieldNamesF, JsValue.truthy, Bool.not_true, Bool.false_eq_true,
    if_false, hc, hclone]
  have hkeys_eq : (cloneRecP false ps).map Prod.fst = ps.map Prod.fst := cloneRecP_keys false ps
  have hndc : ((cloneRecP false ps).map Prod.fst).Nodup := by rw [hkeys_eq]; exact hnd
  have hkmem : JsKey.strK k ∈ (cloneRecP false ps).map Prod.fst := by
    rw [hkeys_eq]; exact getProp_some_mem ps _ _ hmem
  have hkobj : k ∈ (JsValue.obj (cloneRecP false ps)).objectKeys :=
    (mem_objectKeys_iff _ k).mpr hkmem
  obtain ⟨l1, l2, hsplit⟩ := List.append_of_mem hkobj
  have hoknd := objectKeys_nodup _ hndc
  rw [hsplit] at hoknd
  have hparts := List.nodup_append.mp hoknd
  have hk2 : k ∉ l2 := (List.nodup_cons.mp hparts.2.1).1
  have hk1 : k ∉ l1 := fun hk => absurd (List.mem_cons_self k l2) (hparts.2.2 hk)
  have hmem_of : ∀ s, s ∈ l1 ∨ s ∈ l2 → JsKey.strK s ∈ ps.map Prod.fst := by
    intro s hs
    rw [← hkeys_eq]
    apply (mem_objectKeys_iff _ s).mp
    rw [hsplit]
    rcases hs with hs | hs
    · exact List.mem_append_left _ hs
    · exact List.mem_append_right _ (List.mem_cons_of_mem _ hs)
  have hcond : ∀ s, (s ∈ l1 ∨ s ∈ l2) → s ≠ k →
      JsKey.strK k ≠ JsKey.strK s ∧ ∀ ra', lookupRawAttr M (JsKey.strK s) = some ra' →
        ra'.field ≠ ra'.fieldName → JsKey.strK k ≠ JsKey.strK ra'.field := by
    intro s hs hsk
    constructor
    · intro e
      exact hsk (by injection e with e'; exact e'.symm)
    · intro ra' hra' hfn e
      have hsk' : JsKey.strK s ≠ JsKey.strK k := by
        intro e'
        exact hsk (by injection e')
      have := hframe (JsKey.strK s) ra' (hmem_of s hs) hsk' hra' hfn
      exact this (by injection e with e'; exact e'.symm)
  have hkeys2 : (JsValue.obj (cloneRecP false ps)).getComplexKeys
      = ((JsValue.obj (cloneRecP false ps)).getOperators ++ l1.map JsKey.strK)
        ++ (JsKey.strK k :: l2.map JsKey.strK) := by
    simp only [JsValue.getComplexKeys, hsplit]
    simp [List.map_append, List.append_assoc]
  rw [hkeys2, whereKeys_append]
  obtain ⟨rsA, hrsA⟩ := whereKeys_obj fuel M
    ((JsValue.obj (cloneRecP false ps)).getOperators ++ l1.map JsKey.strK) (cloneRecP false ps)
  have hvalA : (whereKeys fuel M
      ((JsValue.obj (cloneRecP false ps)).getOperators ++ l1.map JsKey.strK)
      (.obj (cloneRecP false ps))).getPropV (.strK k) = JsValue.obj (cloneRecP false qs) := by
    rw [whereKeys_frame fuel M (.strK k) _ _ ?_]
    · simp only [getPropV_obj]
      rw [cloneRecP_getProp false ps (.strK k), hmem]
      simp [cloneRec]
    · intro k' hk'
      rcases List.mem_append.mp hk' with hop | hstr
      · obtain ⟨t, rfl⟩ := mem_getOperators_symK _ _ hop
        refine ⟨by simp, fun ra' h => ?_⟩
        rw [lookupRawAttr_symK] at h
        cases h
      · obtain ⟨s, hs, rfl⟩ := List.mem_map.mp hstr
        exact hcond s (Or.inl hs) (fun e => hk1 (e ▸ hs))
  rw [hrsA] at hvalA ⊢
  simp only [whereKeys]
  have hginA : getProp rsA (.strK k) = some (.obj (cloneRecP false qs)) :=
    getD_undef_obj _ _ hvalA
  obtain ⟨rsK, hrsK⟩ := whereKeyStep_obj fuel M rsA (.strK k)
  have hvalK := whereKeyStep_at_key fuel M rsA k (cloneRecP false qs) hginA hra
  rw [hrsK]
  rw [whereKeys_frame fuel M (.strK k) (l2.map JsKey.strK) rsK ?_]
  · rw [← hrsK, hvalK]
  · intro k' hk'
    obtain ⟨s, hs, rfl⟩ := List.mem_map.mp hk'
    exact hcond s (Or.inr hs) (fun e => hk2 (e ▸ hs))

/-- Counterexample to C3 as stated: the key `a` is not HSTORE- or
JSON-typed and carries the plain-object value `{ b: 1 }`, yet its value is
not recursed into — after the rename `a ↦ a_col` the loop re-reads the
deleted key `a`, finds `undefined`, and skips the recursion, so the nested
key `b` keeps its logical name instead of becoming `b_col`. -/
theorem C3_renamed_key_not_recursed :
    mapWhereFieldNamesF 3 (.obj [(.strK "a", .obj [(.strK "b", .num 1)])])
      ⟨[("a", ⟨"a_col", "a", .plainKind⟩), ("b", ⟨"b_col", "b", .plainKind⟩)], []⟩
    = .obj [(.strK "a_col", .obj [(.strK "b", .num 1)])] := by
  simp [mapWhereFieldNamesF, whereKeys, whereKeyStep, whereKeyRename, whereKeyRecurse,
    whereKeyArr, whereArrLoop, cloneDeep, cloneRec, cloneRecL, cloneRecP,
    JsValue.getComplexKeys, JsValue.getOperators, JsValue.objectKeys, lookupRawAttr,
    skipHstoreJson, JsValue.getPropV, JsValue.setPropV, JsValue.delPropV, getProp, setProp,
    delProp, hasProp, JsValue.truthy, JsValue.isPlainObject, JsValue.isArray,
    JsValue.jsLengthOf]

/-- Witness for `C3_hstore_json_skip`: an HSTORE-typed key whose nested
object survives unrewritten, and a plain key whose nested object is
recursed into (its key `b` becomes `b_col`). -/
theorem C3_hstore_json_skip_witness :
    getProp [(JsKey.strK "h", JsValue.obj [(.strK "b", .num 1)])] (.strK "h")
        = some (.obj [(.strK "b", .num 1)])
    ∧ skipHstoreJson (lookupRawAttr
        ⟨[("h", ⟨"h", "h", .hstore⟩), ("b", ⟨"b_col", "b", .plainKind⟩)], []⟩
        (.strK "h")) = true
    ∧ (mapWhereFieldNamesF (2+1) (.obj [(.strK "h", .obj [(.strK "b", .num 1)])])
        ⟨[("h", ⟨"h", "h", .hstore⟩), ("b", ⟨"b_col", "b", .plainKind⟩)], []⟩).getPropV
          (.strK "h")
      = .obj [(.strK "b", .num 1)]
    ∧ (mapWhereFieldNamesF (2+1) (.obj [(.strK "x", .obj [(.strK "b", .num 1)])])
        ⟨[("b", ⟨"b_col", "b", .plainKind⟩)], []⟩).getPropV (.strK "x")
      = .obj [(.strK "b_col", .num 1)] := by
  refine ⟨rfl, rfl, ?_, ?_⟩
  · have h := C3_hstore_json_skip 2
      ⟨[("h", ⟨"h", "h", .hstore⟩), ("b", ⟨"b_col", "b", .plainKind⟩)], []⟩
      [(.strK "h", .obj [(.strK "b", .num 1)])] "h" [(.strK "b", .num 1)]
      (by decide) rfl
      (by intro ra h; cases h; rfl)
      (by intro k' ra' hk' hne h1 h2; simp at hk'; exact absurd hk' hne)
    rw [h]
    rfl
  · have h := C3_hstore_json_skip 2
      ⟨[("b", ⟨"b_col", "b", .plainKind⟩)], []⟩
      [(.strK "x", .obj [(.strK "b", .num 1)])] "x" [(.strK "b", .num 1)]
      (by decide) rfl
      (by intro ra h; cases h)
      (by intro k' ra' hk' hne h1 h2; simp at hk'; exact absurd hk' hne)
    rw [h]
    simp [skipHstoreJson, lookupRawAttr, cloneRec, cloneRecP, mapWhereFieldNamesF,
      whereKeys, whereKeyStep, whereKeyRename, whereKeyRecurse, whereKeyArr, whereArrLoop,
      cloneDeep, cloneRecL, JsValue.getComplexKeys, JsValue.getOperators,
      JsValue.objectKeys, JsValue.getPropV, JsValue.setPropV, JsValue.delPropV, getProp,
      setProp, delProp, JsValue.truthy, JsValue.isPlainObject, JsValue.isArray,
      JsValue.jsLengthOf]
